import Mathlib

/-!
# Pull-based sequences (`solution/seq.go`)

A shallow embedding of the Go package `seq`.

* A Go `error` is `Option GoError`; `nil` is `none`.  `GoError` keeps the
  wrapping structure of Go errors because the terminal operations compare
  with `errors.Is`, which follows `Unwrap` chains.
* A `Seq[T]` is a state machine.  `Next` consumes the state of the sequence
  and the state of the rest of the program (the world `W`, which is what the
  caller-supplied functions may read and write) and returns the pulled
  element, the error, and both successor states.
* Go functions passed by the caller (`func(E)`, `func(I) O`, ...) are
  world-passing functions, so that "is invoked" is observable.
* Recursion and loops that need not terminate take a fuel argument; the
  result `none` means that the fuel ran out before the call returned.
* A Go integer type is its width and signedness; values are integers and
  arithmetic is reduced into the type (`IntType.wrap`).
* `bufio.Scanner`, `os.Open` and `json.Unmarshal` belong to the standard
  library: the scanner is a small state machine, the other two are parameters.
-/

namespace seq

/-! ## Errors -/

/-- Non-nil Go error values: the package-level sentinel `Exhausted`, any other
error without an `Unwrap` method, and an error wrapping another one. -/
inductive GoError where
  | exhausted : GoError
  | leaf : Nat → GoError
  | wrap : Nat → GoError → GoError
  deriving DecidableEq, Repr

/-- The Go interface type `error`; `none` is `nil`. -/
abbrev error := Option GoError

/-- The declaration `var Exhausted = errors.New("sequence exhausted")`. -/
def Exhausted : error := some GoError.exhausted

/-- The loop of `errors.Is` on non-nil arguments: compare, then unwrap. -/
def GoError.is (target : GoError) : GoError → Bool
  | GoError.wrap m inner => (GoError.wrap m inner == target) || GoError.is target inner
  | e => e == target

/-- The standard library function `errors.Is(err, target)`. -/
def errorsIs (err target : error) : Bool :=
  match err, target with
  | some e, some t => GoError.is t e
  | none, none => true
  | _, _ => false

/-! ## The sequence contract -/

/-- What a call of `Next` leaves behind: the returned element and error, the
state of the sequence after the call, and the world after the call. -/
structure Pull (T σ W : Type) where
  e : T
  err : error
  s : σ
  w : W
  deriving DecidableEq, Repr

/-- The interface `Seq[T]`, implemented by the state type `σ`. -/
class Seq (W : Type) (σ : Type) (T : outParam Type) where
  Next : Nat → σ → W → Option (Pull T σ W)

/-! ## Slice-backed source -/

/-- The struct `sliceSeq[E]`.  The cursor `idx` starts at zero and is only
ever incremented while below `len(s)`, so it is a natural number. -/
structure sliceSeq (E : Type) where
  s : List E
  idx : Nat
  deriving DecidableEq, Repr

/-- The method `(*sliceSeq[E]).Next`. -/
def sliceSeq.Next {E W : Type} [Inhabited E] (s : sliceSeq E) (w : W) :
    Pull E (sliceSeq E) W :=
  if h : s.idx ≥ s.s.length then
    ⟨default, Exhausted, s, w⟩
  else
    ⟨s.s.get ⟨s.idx, by omega⟩, none, ⟨s.s, s.idx + 1⟩, w⟩

instance {E W : Type} [Inhabited E] : Seq W (sliceSeq E) E where
  Next _ s w := some (sliceSeq.Next s w)

/-- The constructor `FromSlice`. -/
def FromSlice {E : Type} (s : List E) : sliceSeq E := ⟨s, 0⟩

/-! ## Take -/

/-- The struct `takeSeq[E]` over an upstream with state `σ`.  `current` never
exceeds `max 0 limit`, so the increment cannot overflow a Go `int`. -/
structure takeSeq (σ : Type) where
  current : Int
  limit : Int
  from_ : σ
  deriving DecidableEq, Repr

/-- The method `(*takeSeq[E]).Next`. -/
def takeSeq.Next {W σ E : Type} [Seq W σ E] [Inhabited E] (fuel : Nat) (t : takeSeq σ)
    (w : W) : Option (Pull E (takeSeq σ) W) :=
  if t.current ≥ t.limit then
    some ⟨default, Exhausted, t, w⟩
  else
    match Seq.Next fuel t.from_ w with
    | none => none
    | some r => some ⟨r.e, r.err, ⟨t.current + 1, t.limit, r.s⟩, r.w⟩

instance {W σ E : Type} [Seq W σ E] [Inhabited E] : Seq W (takeSeq σ) E where
  Next := takeSeq.Next

/-- The constructor `Take`. -/
def Take {σ : Type} (s : σ) (count : Int) : takeSeq σ := ⟨0, count, s⟩

/-! ## ForEach -/

/-- What a terminal operation leaves behind when it returns. -/
structure Result (α σ W : Type) where
  val : α
  s : σ
  w : W
  deriving DecidableEq, Repr

/-- The function `ForEach`; one unit of fuel per loop iteration. -/
def ForEach {W σ E : Type} [Seq W σ E] (f : E → W → W) :
    Nat → σ → W → Option (Result error σ W)
  | 0, _, _ => none
  | fuel + 1, s, w =>
    match Seq.Next fuel s w with
    | none => none
    | some r =>
      if errorsIs r.err Exhausted then some ⟨none, r.s, r.w⟩
      else if r.err ≠ none then some ⟨r.err, r.s, r.w⟩
      else ForEach f fuel r.s (f r.e r.w)

/-! ## Map and MapE -/

/-- The struct `mapSeq[I, O]`. -/
structure mapSeq (W σ I O : Type) where
  s : σ
  mapper : I → W → O × W

/-- The method `mapSeq[I, O].Next`. -/
def mapSeq.Next {W σ I O : Type} [Seq W σ I] [Inhabited O] (fuel : Nat)
    (m : mapSeq W σ I O) (w : W) : Option (Pull O (mapSeq W σ I O) W) :=
  match Seq.Next fuel m.s w with
  | none => none
  | some r =>
    if r.err ≠ none then some ⟨default, r.err, ⟨r.s, m.mapper⟩, r.w⟩
    else
      let ow := m.mapper r.e r.w
      some ⟨ow.1, none, ⟨r.s, m.mapper⟩, ow.2⟩

instance {W σ I O : Type} [Seq W σ I] [Inhabited O] : Seq W (mapSeq W σ I O) O where
  Next := mapSeq.Next

/-- The constructor `Map`. -/
def Map {W σ I O : Type} (s : σ) (m : I → W → O × W) : mapSeq W σ I O := ⟨s, m⟩

/-- The struct `mapESeq[I, O]`. -/
structure mapESeq (W σ I O : Type) where
  s : σ
  mapper : I → W → (O × error) × W

/-- The method `mapESeq[I, O].Next`. -/
def mapESeq.Next {W σ I O : Type} [Seq W σ I] [Inhabited O] (fuel : Nat)
    (m : mapESeq W σ I O) (w : W) : Option (Pull O (mapESeq W σ I O) W) :=
  match Seq.Next fuel m.s w with
  | none => none
  | some r =>
    if r.err ≠ none then some ⟨default, r.err, ⟨r.s, m.mapper⟩, r.w⟩
    else
      let ow := m.mapper r.e r.w
      some ⟨ow.1.1, ow.1.2, ⟨r.s, m.mapper⟩, ow.2⟩

instance {W σ I O : Type} [Seq W σ I] [Inhabited O] : Seq W (mapESeq W σ I O) O where
  Next := mapESeq.Next

/-- The constructor `MapE`. -/
def MapE {W σ I O : Type} (s : σ) (m : I → W → (O × error) × W) : mapESeq W σ I O :=
  ⟨s, m⟩

/-! ## Reduce -/

/-- How a call of `Reduce` ends: it returns `(r, err)`, or it panics. -/
inductive Outcome (R σ W : Type) where
  | returned : R → error → σ → W → Outcome R σ W
  | panicked : String → σ → W → Outcome R σ W
  deriving DecidableEq, Repr

/-- The `for` loop of `Reduce`; one unit of fuel per iteration. -/
def Reduce.loop {W σ I R : Type} [Seq W σ I] (reducer : R → I → W → R × W) :
    Nat → R → σ → W → Option (Outcome R σ W)
  | 0, _, _, _ => none
  | fuel + 1, r, s, w =>
    match Seq.Next fuel s w with
    | none => none
    | some p =>
      if errorsIs p.err Exhausted then some (Outcome.returned r none p.s p.w)
      else if p.err ≠ none then some (Outcome.returned r p.err p.s p.w)
      else
        let rw := reducer r p.e p.w
        Reduce.loop reducer fuel rw.1 p.s rw.2

/-- The function `Reduce`; the variadic `initial ...R` is a list. -/
def Reduce {W σ I R : Type} [Seq W σ I] [Inhabited R] (fuel : Nat) (s : σ)
    (reducer : R → I → W → R × W) (initial : List R) (w : W) : Option (Outcome R σ W) :=
  if initial.length > 1 then
    some (Outcome.panicked "more then one initial value given" s w)
  else
    let r : R := if h : initial.length = 1 then initial.get ⟨0, by omega⟩ else default
    Reduce.loop reducer fuel r s w

/-! ## Filter -/

/-- The type `Predicate[E]`. -/
abbrev Predicate (W E : Type) := E → W → Bool × W

/-- The struct `filterSeq[E]`. -/
structure filterSeq (W σ E : Type) where
  s : σ
  p : Predicate W E

/-- The method `(*filterSeq[E]).Next`; one unit of fuel per (recursive) call. -/
def filterSeq.Next {W σ E : Type} [Seq W σ E] :
    Nat → filterSeq W σ E → W → Option (Pull E (filterSeq W σ E) W)
  | 0, _, _ => none
  | fuel + 1, f, w =>
    match Seq.Next fuel f.s w with
    | none => none
    | some r =>
      if r.err ≠ none then some ⟨r.e, r.err, ⟨r.s, f.p⟩, r.w⟩
      else
        let bw := f.p r.e r.w
        if bw.1 then some ⟨r.e, none, ⟨r.s, f.p⟩, bw.2⟩
        else filterSeq.Next fuel ⟨r.s, f.p⟩ bw.2

instance {W σ E : Type} [Seq W σ E] : Seq W (filterSeq W σ E) E where
  Next := filterSeq.Next

/-- The constructor `Filter`. -/
def Filter {W σ E : Type} (s : σ) (p : Predicate W E) : filterSeq W σ E := ⟨s, p⟩

/-! ## Line-scanner-backed source -/

/-- A byte slice; the nil slice is the empty list. -/
abbrev Bytes := List Nat

/-- A model of the standard library's `*bufio.Scanner` splitting lines.
`ahead` are the tokens `Scan` delivers before the end or the failure of the
reader is known; `readErr` is the error the reader ends with when it is not
`io.EOF` (`none` for a clean end); `late` are the tokens still buffered when
the reader failed, which `Scan` delivers after having recorded the error;
`token` is what `Bytes()` returns and `err` what `Err()` returns. -/
structure bufioScanner where
  ahead : List Bytes
  late : List Bytes
  readErr : error
  token : Bytes
  err : error
  deriving DecidableEq, Repr

/-- The method `Scan`: the next token, if any; the reader's error is recorded
once the tokens read ahead of it are used up. -/
def bufioScanner.Scan (s : bufioScanner) : Bool × bufioScanner :=
  match s.ahead with
  | x :: rest => (true, ⟨rest, s.late, s.readErr, x, s.err⟩)
  | [] =>
    match s.late with
    | x :: rest => (true, ⟨[], rest, s.readErr, x, s.readErr⟩)
    | [] => (false, ⟨[], [], s.readErr, [], s.readErr⟩)

/-- The method `Err`. -/
def bufioScanner.Err (s : bufioScanner) : error := s.err

/-- The method `Bytes`. -/
def bufioScanner.Bytes (s : bufioScanner) : Bytes := s.token

/-- The struct `scannerSeq`. -/
structure scannerSeq where
  scanner : bufioScanner
  deriving DecidableEq, Repr

/-- The method `scannerSeq.Next`. -/
def scannerSeq.Next {W : Type} (s : scannerSeq) (w : W) : Pull Bytes scannerSeq W :=
  let sc := s.scanner.Scan
  if !sc.1 then
    ⟨[], Exhausted, ⟨sc.2⟩, w⟩
  else if sc.2.Err ≠ none then
    ⟨[], sc.2.Err, ⟨sc.2⟩, w⟩
  else
    ⟨sc.2.Bytes, none, ⟨sc.2⟩, w⟩

instance {W : Type} : Seq W scannerSeq Bytes where
  Next _ s w := some (scannerSeq.Next s w)

/-- The constructor `Scanner`. -/
def Scanner (s : bufioScanner) : scannerSeq := ⟨s⟩

/-! ## Arithmetic-range source -/

/-- A Go integer type admitted by the constraint `Integer`: its width in bits
and whether it is signed. -/
structure IntType where
  bits : Nat
  signed : Bool
  deriving DecidableEq, Repr

/-- The value of type `t` that Go arithmetic produces for the mathematical
result `x`: reduction modulo `2 ^ bits`, read in two's complement when the type
is signed. -/
def IntType.wrap (t : IntType) (x : Int) : Int :=
  if t.signed then (x + 2 ^ (t.bits - 1)) % 2 ^ t.bits - 2 ^ (t.bits - 1)
  else x % 2 ^ t.bits

/-- The Go type `int` on a 64-bit platform. -/
def goInt : IntType := ⟨64, true⟩

/-- The struct `intRange[E]`; `ty` is the type parameter `E`, and `end_` is the
pointer field `end` (`none` is nil). -/
structure intRange where
  ty : IntType
  v : Int
  inc : Int
  end_ : Option Int
  deriving DecidableEq, Repr

/-- The method `(*intRange[E]).Next`. -/
def intRange.Next {W : Type} (r : intRange) (w : W) : Pull Int intRange W :=
  if r.end_ ≠ none ∧ r.ty.wrap (r.v + r.inc) ≥ r.end_.getD 0 then
    ⟨0, Exhausted, r, w⟩
  else
    ⟨r.v, none, ⟨r.ty, r.ty.wrap (r.v + r.inc), r.inc, r.end_⟩, w⟩

instance {W : Type} : Seq W intRange Int where
  Next _ r w := some (intRange.Next r w)

/-- The constructor `InfiniteIntRange[E]`. -/
def InfiniteIntRange (E : IntType) (start inc : Int) : intRange := ⟨E, start, inc, none⟩

/-! ## The functions of the examples (`seq_test.go`, `example1_test.go`) -/

/-- The mapper `func(i int) int { return i * 3 }`. -/
def timesThree : Int → Unit → Int × Unit :=
  fun i w => (goInt.wrap (i * 3), w)

/-- The predicate `func(i int) bool { return i%2 == 0 }`; Go's `%` truncates. -/
def isEven : Predicate Unit Int :=
  fun i w => (Int.tmod i 2 == 0, w)

/-- The reducer `func(sum, i int) int { return sum + i }`. -/
def plus : Int → Int → Unit → Int × Unit :=
  fun sum i w => (goInt.wrap (sum + i), w)

/-! ## Filter as an explicit loop -/

/-- The struct `logEntry`. -/
structure logEntry where
  App : String
  Severity : String
  deriving DecidableEq, Repr, Inhabited

/-- A Go `map[string]int`: the value stored under each key, if any. -/
abbrev Stats := String → Option Int

/-- The call `make(map[string]int)`. -/
def Stats.empty : Stats := fun _ => none

/-- The statement `stats[k] = stats[k] + 1`; a missing key reads as zero. -/
def Stats.incr (stats : Stats) (k : String) : Stats :=
  Function.update stats k (some (goInt.wrap ((stats k).getD 0 + 1)))

/-- The `for scanner.Scan()` loop of `calcMessageStats_idiomatic`; one unit of
fuel per round. -/
def calcMessageStats_idiomatic.loop (unmarshal : Bytes → logEntry × error) :
    Nat → bufioScanner → Stats → Option (Except String (Option Stats × error))
  | 0, _, _ => none
  | fuel + 1, scanner, stats =>
    let sc := scanner.Scan
    if sc.1 then
      let d := unmarshal sc.2.Bytes
      if d.2 ≠ none then some (Except.ok (none, d.2))
      else if d.1.App == "" then calcMessageStats_idiomatic.loop unmarshal fuel sc.2 stats
      else if d.1.Severity != "error" && d.1.Severity != "warn" then
        calcMessageStats_idiomatic.loop unmarshal fuel sc.2 stats
      else calcMessageStats_idiomatic.loop unmarshal fuel sc.2 (stats.incr d.1.App)
    else some (Except.ok (some stats, none))

/-- The function `calcMessageStats_idiomatic`. -/
def calcMessageStats_idiomatic (osOpen : String → bufioScanner × error)
    (unmarshal : Bytes → logEntry × error) (fuel : Nat) (filename : String) :
    Option (Except String (Option Stats × error)) :=
  let fe := osOpen filename
  if fe.2 ≠ none then some (Except.ok (none, fe.2))
  else calcMessageStats_idiomatic.loop unmarshal fuel fe.1 Stats.empty

/-- A probe, not part of the package: a sequence that forwards every pull to
`inner` and counts the pulls it forwarded. -/
structure pullCounter (σ : Type) where
  inner : σ
  pulls : Nat
  deriving DecidableEq, Repr

instance {W σ T : Type} [Seq W σ T] : Seq W (pullCounter σ) T where
  Next fuel c w :=
    match Seq.Next fuel c.inner w with
    | none => none
    | some r => some ⟨r.e, r.err, ⟨r.s, c.pulls + 1⟩, r.w⟩

/-- The pull number `k` (counting from zero) in a row of pulls on a sequence,
each pull made whatever the pulls before it returned. -/
def nthPull {W σ T : Type} [Seq W σ T] (fuel : Nat) : Nat → σ → W → Option (Pull T σ W)
  | 0, s, w => Seq.Next fuel s w
  | k + 1, s, w =>
    match Seq.Next fuel s w with
    | none => none
    | some r => nthPull fuel k r.s r.w

/-- More fuel never changes what a pull returns: a pull that returns with
fuel `f` returns the same with any fuel above `f`. -/
def FuelMono (W σ : Type) {T : Type} [Seq W σ T] : Prop :=
  ∀ (f g : Nat) (s : σ) (w : W) (r : Pull T σ W),
    f ≤ g → Seq.Next f s w = some r → Seq.Next g s w = some r

/-! ## Describing what a sequence does

These are specifications, not code: they say what a run of pulls on a
sequence looks like, so that statements can quantify over every upstream. -/

/-- The run `Emits W N s steps s1`: starting in state `s`, one pull per entry of
`steps` succeeds (given at least `N` fuel, in whatever world it is made); the
entry records the element returned with a nil error and what the pull does to
the world; the pulls leave the sequence in state `s1`. -/
inductive Emits (W : Type) {σ T : Type} [Seq W σ T] (N : Nat) :
    σ → List (T × (W → W)) → σ → Prop where
  | done (s : σ) : Emits W N s [] s
  | pull {s s1 s2 : σ} {x : T} {g : W → W} {rest : List (T × (W → W))} :
      (∀ fuel w, N ≤ fuel → Seq.Next fuel s w = some ⟨x, none, s1, g w⟩) →
      Emits W N s1 rest s2 → Emits W N s ((x, g) :: rest) s2

/-- The pull `Halts W N s err g s1`: a pull in state `s` (given at least `N`
fuel) returns the non-nil error `err`, does `g` to the world and leaves the
sequence in state `s1`. -/
def Halts (W : Type) {σ T : Type} [Seq W σ T] (N : Nat) (s : σ) (err : GoError)
    (g : W → W) (s1 : σ) : Prop :=
  ∀ fuel w, N ≤ fuel → ∃ e, Seq.Next fuel s w = some ⟨e, some err, s1, g w⟩

/-- Steps of a sequence that returns `xs` and leaves the world alone. -/
def quiet {W T : Type} (xs : List T) : List (T × (W → W)) :=
  xs.map fun x => (x, id)

/-- A fallible Go function for `MapE` that returns the pair `m a` and does
`tick a` to the world. -/
def fallible {W A B : Type} (m : A → B × error) (tick : A → W → W) :
    A → W → (B × error) × W :=
  fun a w => (m a, tick a w)

/-- A Go function that returns `g a` and does `tick a` to the world. -/
def effectful {W A B : Type} (g : A → B) (tick : A → W → W) : A → W → B × W :=
  fun a w => (g a, tick a w)

/-- A Go function without side effects, as a world-passing function. -/
def pure1 {W A B : Type} (g : A → B) : A → W → B × W :=
  effectful g (fun _ w => w)

/-- The world after calling `f` once on each element of `xs`, left to right. -/
def visit {W E : Type} (f : E → W → W) (xs : List E) (w : W) : W :=
  xs.foldl (fun w x => f x w) w

/-- The accumulator and the world after calling the reducer `f` once on each
element of `xs`, left to right, starting from the accumulator `a`. -/
def fold {W I R : Type} (f : R → I → W → R × W) (xs : List I) (a : R) (w : W) : R × W :=
  xs.foldl (fun p x => f p.1 x p.2) (a, w)

/-- A Go reducer returning `g r x` that also appends the element it was
called on to a log. -/
def loggedReducer {R I : Type} (g : R → I → R) : R → I → List I → R × List I :=
  fun r x log => (g r x, log ++ [x])

/-- The reducer that appends each element to the accumulated list. -/
def collect {W T : Type} : List T → T → W → List T × W :=
  fun acc x w => (acc ++ [x], w)

/-- The steps of a filter over an upstream that quietly emits the given
elements: one step per element passing `q`, whose effect is the test of every
element rejected since the previous step (`pend`), then its own test. -/
def filterSteps {W E : Type} (q : E → Bool) (tick : E → W → W) :
    (W → W) → List E → List (E × (W → W))
  | _, [] => []
  | pend, x :: xs =>
    if q x then (x, tick x ∘ pend) :: filterSteps q tick id xs
    else filterSteps q tick (tick x ∘ pend) xs

/-- The effect of the last pull of such a filter: the tests of the elements
rejected after the last passing one. -/
def filterRest {W E : Type} (q : E → Bool) (tick : E → W → W) :
    (W → W) → List E → (W → W)
  | pend, [] => pend
  | pend, x :: xs =>
    if q x then filterRest q tick id xs else filterRest q tick (tick x ∘ pend) xs

/-- The world after testing each element of `xs` once, in order, and handing
each element that passes to `f` right after its test. -/
def filterVisit {W E : Type} (q : E → Bool) (tick : E → W → W) (f : E → W → W)
    (xs : List E) (w : W) : W :=
  xs.foldl (fun w x => if q x then f x (tick x w) else tick x w) w

/-! ## Lemmas on the terminal operations -/

theorem errorsIs_exhausted : errorsIs Exhausted Exhausted = true := by
  decide

theorem errorsIs_nil : errorsIs none Exhausted = false := by
  decide

theorem forEach_run {W σ E : Type} [Seq W σ E] (f : E → W → W) {N : Nat} {s s1 s2 : σ}
    {steps : List (E × (W → W))} {err : GoError} {g : W → W}
    (hE : Emits W N s steps s1) (hH : Halts W N s1 err g s2) :
    ∀ (fuel : Nat) (w : W), N + steps.length + 1 ≤ fuel →
      ForEach f fuel s w
        = some ⟨if errorsIs (some err) Exhausted then none else some err, s2,
            g (steps.foldl (fun w st => f st.1 (st.2 w)) w)⟩ := by
  induction hE with
  | done s =>
    intro fuel w hf
    obtain ⟨k, rfl⟩ : ∃ k, fuel = k + 1 := ⟨fuel - 1, by omega⟩
    obtain ⟨e, he⟩ := hH k w (by simp at hf; omega)
    simp only [ForEach, he, List.foldl_nil]
    by_cases hx : errorsIs (some err) Exhausted = true
    · simp [hx]
    · simp [hx]
  | pull hp _ ih =>
    intro fuel w hf
    obtain ⟨k, rfl⟩ : ∃ k, fuel = k + 1 := ⟨fuel - 1, by omega⟩
    simp only [List.length_cons] at hf
    rw [ForEach, hp k w (by omega)]
    simp only [errorsIs_nil, ne_eq, not_true_eq_false, if_false, Bool.false_eq_true,
      List.foldl_cons]
    exact ih hH k _ (by omega)

theorem reduce_loop_run {W σ I R : Type} [Seq W σ I] (f : R → I → W → R × W) {N : Nat}
    {s s1 s2 : σ} {steps : List (I × (W → W))} {err : GoError} {g : W → W}
    (hE : Emits W N s steps s1) (hH : Halts W N s1 err g s2) :
    ∀ (fuel : Nat) (r : R) (w : W), N + steps.length + 1 ≤ fuel →
      Reduce.loop f fuel r s w
        = some (Outcome.returned
            (steps.foldl (fun p st => f p.1 st.1 (st.2 p.2)) (r, w)).1
            (if errorsIs (some err) Exhausted then none else some err) s2
            (g (steps.foldl (fun p st => f p.1 st.1 (st.2 p.2)) (r, w)).2)) := by
  induction hE with
  | done s =>
    intro fuel r w hf
    obtain ⟨k, rfl⟩ : ∃ k, fuel = k + 1 := ⟨fuel - 1, by omega⟩
    obtain ⟨e, he⟩ := hH k w (by simp at hf; omega)
    simp only [Reduce.loop, he, List.foldl_nil]
    by_cases hx : errorsIs (some err) Exhausted = true
    · simp [hx]
    · simp [hx]
  | pull hp _ ih =>
    intro fuel r w hf
    obtain ⟨k, rfl⟩ : ∃ k, fuel = k + 1 := ⟨fuel - 1, by omega⟩
    simp only [List.length_cons] at hf
    rw [Reduce.loop, hp k w (by omega)]
    simp only [errorsIs_nil, ne_eq, not_true_eq_false, if_false, Bool.false_eq_true,
      List.foldl_cons]
    exact ih hH k _ _ (by omega)

/-! ## Lemmas on the slice-backed source -/

theorem sliceSeq_halts {W E : Type} [Inhabited E] (xs : List E) (i : Nat)
    (hi : xs.length ≤ i) :
    Halts W 0 (⟨xs, i⟩ : sliceSeq E) GoError.exhausted id ⟨xs, i⟩ := by
  intro fuel w _
  refine ⟨default, ?_⟩
  simp [Seq.Next, sliceSeq.Next, hi, Exhausted]

theorem sliceSeq_emits_from {W E : Type} [Inhabited E] (xs : List E) :
    ∀ (n i : Nat), i + n = xs.length →
      Emits W 0 (⟨xs, i⟩ : sliceSeq E) (quiet (xs.drop i)) ⟨xs, xs.length⟩ := by
  intro n
  induction n with
  | zero =>
    intro i hi
    have h0 : i = xs.length := by omega
    subst h0
    simp only [List.drop_length, quiet, List.map_nil]
    exact Emits.done _
  | succ n ih =>
    intro i hi
    have hlt : i < xs.length := by omega
    rw [List.drop_eq_getElem_cons hlt]
    simp only [quiet, List.map_cons]
    refine Emits.pull ?_ (ih (i + 1) (by omega))
    intro fuel w _
    have hn : ¬ xs.length ≤ i := by omega
    simp [Seq.Next, sliceSeq.Next, hn]

theorem sliceSeq_emits {W E : Type} [Inhabited E] (xs : List E) :
    Emits W 0 (FromSlice xs) (quiet xs) ⟨xs, xs.length⟩ := by
  have h := sliceSeq_emits_from (W := W) xs xs.length 0 (by omega)
  simpa [FromSlice] using h

theorem foldl_quiet {W T A : Type} (k : A → T → A) (xs : List T) (a : A) (wsel : A → W)
    (put : A → T → W → A)
    (hk : ∀ a x, put a x (wsel a) = k a x) :
    (quiet (W := W) xs).foldl (fun p st => put p st.1 (st.2 (wsel p))) a = xs.foldl k a := by
  induction xs generalizing a with
  | nil => rfl
  | cons x xs ih =>
    simp only [quiet, List.map_cons, List.foldl_cons, id_eq, hk]
    exact ih _

theorem foldl_loggedReducer {R I : Type} (g : R → I → R) (xs : List I) (a : R)
    (log : List I) :
    xs.foldl (fun p x => loggedReducer g p.1 x p.2) (a, log) = (xs.foldl g a, log ++ xs) := by
  induction xs generalizing a log with
  | nil => simp
  | cons x xs ih =>
    rw [List.foldl_cons]
    simp only [loggedReducer] at ih ⊢
    rw [ih]
    simp

theorem foldl_append_log {E : Type} (xs : List E) (log : List E) :
    xs.foldl (fun w x => w ++ [x]) log = log ++ xs := by
  induction xs generalizing log with
  | nil => simp
  | cons x xs ih => simp [ih]

theorem reduceLoop_slice {W E R : Type} [Inhabited E] (xs : List E)
    (f : R → E → W → R × W) (a : R) (w : W) (fuel : Nat) (hfuel : xs.length < fuel) :
    Reduce.loop f fuel a (FromSlice xs) w
      = some (Outcome.returned (xs.foldl (fun p x => f p.1 x p.2) (a, w)).1 none
          ⟨xs, xs.length⟩ (xs.foldl (fun p x => f p.1 x p.2) (a, w)).2) := by
  have h := reduce_loop_run f (sliceSeq_emits (W := W) xs)
    (sliceSeq_halts (W := W) xs xs.length (le_refl _)) fuel a w
    (by simp [quiet]; omega)
  have hq : (quiet (W := W) xs).foldl (fun p st => f p.1 st.1 (st.2 p.2)) (a, w)
      = xs.foldl (fun p x => f p.1 x p.2) (a, w) :=
    foldl_quiet (fun p x => f p.1 x p.2) xs (a, w) (fun p => p.2) (fun p x v => f p.1 x v)
      (fun _ _ => rfl)
  rw [hq] at h
  simpa [errorsIs_exhausted, Exhausted] using h

/-! ## Lemmas on runs, the pull counter and Take -/

theorem emits_split {W σ T : Type} [Seq W σ T] {N : Nat} {s s1 : σ}
    {steps : List (T × (W → W))} (hE : Emits W N s steps s1) :
    ∀ n : Nat, ∃ sm, Emits W N s (steps.take n) sm ∧ Emits W N sm (steps.drop n) s1 := by
  induction hE with
  | done s =>
    intro n
    exact ⟨s, by simpa using Emits.done s, by simpa using Emits.done s⟩
  | pull hp hrest ih =>
    intro n
    cases n with
    | zero => exact ⟨_, by simpa using Emits.done _, by simpa using Emits.pull hp hrest⟩
    | succ n =>
      obtain ⟨sm, h1, h2⟩ := ih n
      exact ⟨sm, by simpa using Emits.pull hp h1, by simpa using h2⟩

theorem pullCounter_emits {W σ T : Type} [Seq W σ T] {N : Nat} {s s1 : σ}
    {steps : List (T × (W → W))} (hE : Emits W N s steps s1) :
    ∀ k : Nat, Emits W N (⟨s, k⟩ : pullCounter σ) steps ⟨s1, k + steps.length⟩ := by
  induction hE with
  | done s => intro k; simpa using Emits.done _
  | @pull a b c x g rest hp _ ih =>
    intro k
    refine @Emits.pull W _ _ _ _ _ (⟨b, k + 1⟩) _ _ _ _ ?_ ?_
    · intro fuel w hf
      simp [Seq.Next, hp fuel w hf]
    · have h := ih (k + 1)
      simpa [Nat.add_assoc, Nat.add_comm 1] using h

theorem pullCounter_halts {W σ T : Type} [Seq W σ T] {N : Nat} {s s1 : σ} {err : GoError}
    {g : W → W} (hH : Halts W N s err g s1) (k : Nat) :
    Halts W N (⟨s, k⟩ : pullCounter σ) err g ⟨s1, k + 1⟩ := by
  intro fuel w hf
  obtain ⟨e, he⟩ := hH fuel w hf
  exact ⟨e, by simp [Seq.Next, he]⟩

theorem takeSeq_emits {W σ E : Type} [Seq W σ E] [Inhabited E] {N : Nat} {s s1 : σ}
    {steps : List (E × (W → W))} (hE : Emits W N s steps s1) (limit : Int) :
    ∀ c : Int, c + steps.length ≤ limit →
      Emits W N (⟨c, limit, s⟩ : takeSeq σ) steps ⟨c + steps.length, limit, s1⟩ := by
  induction hE with
  | done s => intro c _; simpa using Emits.done _
  | @pull a b d x g rest hp _ ih =>
    intro c hc
    simp only [List.length_cons, Nat.cast_add, Nat.cast_one] at hc
    refine @Emits.pull W _ _ _ _ _ (⟨c + 1, limit, b⟩) _ _ _ _ ?_ ?_
    · intro fuel w hf
      have hlt : ¬ limit ≤ c := by omega
      simp [Seq.Next, takeSeq.Next, hlt, hp fuel w hf]
    · have h := ih (c + 1) (by omega)
      have he : c + 1 + (rest.length : Int) = c + (((x, g) :: rest).length : Nat) := by
        simp only [List.length_cons, Nat.cast_add, Nat.cast_one]; omega
      rw [← he]
      exact h

theorem takeSeq_halts_limit {W σ E : Type} [Seq W σ E] [Inhabited E] (c limit : Int)
    (s : σ) (hc : limit ≤ c) :
    Halts W 0 (⟨c, limit, s⟩ : takeSeq σ) GoError.exhausted id ⟨c, limit, s⟩ := by
  intro fuel w _
  exact ⟨default, by simp [Seq.Next, takeSeq.Next, hc, Exhausted]⟩

theorem takeSeq_halts_upstream {W σ E : Type} [Seq W σ E] [Inhabited E] {N : Nat}
    {s s1 : σ} {err : GoError} {g : W → W} (hH : Halts W N s err g s1) (c limit : Int)
    (hc : c < limit) :
    Halts W N (⟨c, limit, s⟩ : takeSeq σ) err g ⟨c + 1, limit, s1⟩ := by
  intro fuel w hf
  obtain ⟨e, he⟩ := hH fuel w hf
  have hlt : ¬ limit ≤ c := by omega
  exact ⟨e, by simp [Seq.Next, takeSeq.Next, hlt, he]⟩

theorem halts_mono {W σ T : Type} [Seq W σ T] {N M : Nat} {s s1 : σ} {err : GoError}
    {g : W → W} (hH : Halts W N s err g s1) (hNM : N ≤ M) : Halts W M s err g s1 :=
  fun fuel w hf => hH fuel w (le_trans hNM hf)

theorem emits_mono {W σ T : Type} [Seq W σ T] {N M : Nat} {s s1 : σ}
    {steps : List (T × (W → W))} (hE : Emits W N s steps s1) (hNM : N ≤ M) :
    Emits W M s steps s1 := by
  induction hE with
  | done s => exact Emits.done s
  | pull hp _ ih => exact Emits.pull (fun fuel w hf => hp fuel w (le_trans hNM hf)) ih

theorem quiet_take {W T : Type} (xs : List T) (n : Nat) :
    (quiet (W := W) xs).take n = quiet (xs.take n) := by
  simp [quiet, List.map_take]

theorem quiet_length {W T : Type} (xs : List T) : (quiet (W := W) xs).length = xs.length := by
  simp [quiet]

/-- Draining `Take(s, n)` over a counted upstream that emits `xs` and then
reports `Exhausted`: what the take emits, and where it halts. -/
theorem take_run {W σ E : Type} [Seq W σ E] [Inhabited E] {N : Nat} {s s1 s2 : σ}
    {xs : List E} (n : Nat) (hE : Emits W N s (quiet xs) s1)
    (hH : Halts W N s1 GoError.exhausted id s2) :
    ∃ (u : σ) (t : takeSeq (pullCounter σ)),
      Emits W N (Take (⟨s, 0⟩ : pullCounter σ) n) (quiet (xs.take n)) t
      ∧ Halts W N t GoError.exhausted id
          ⟨(min n (xs.length + 1) : Nat), n, ⟨u, min n (xs.length + 1)⟩⟩ := by
  by_cases hn : n ≤ xs.length
  · obtain ⟨sm, h1, _⟩ := emits_split hE n
    rw [quiet_take] at h1
    have hlen : (xs.take n).length = n := by simp [hn]
    have hc := pullCounter_emits h1 0
    have ht := takeSeq_emits hc (n : Int) 0 (by rw [quiet_length, hlen]; simp)
    rw [quiet_length, hlen] at ht
    simp only [zero_add] at ht
    have hm : min n (xs.length + 1) = n := by omega
    rw [hm]
    refine ⟨sm, _, ht, ?_⟩
    exact halts_mono (takeSeq_halts_limit (n : Int) (n : Int) _ (le_refl _)) (Nat.zero_le N)
  · have hlt : xs.length < n := by omega
    have htk : xs.take n = xs := List.take_of_length_le (by omega)
    have hc := pullCounter_emits hE 0
    have ht := takeSeq_emits hc (n : Int) 0 (by rw [quiet_length]; omega)
    rw [quiet_length] at ht
    simp only [zero_add] at ht
    have hm : min n (xs.length + 1) = xs.length + 1 := by omega
    rw [hm, htk]
    refine ⟨s2, _, ht, ?_⟩
    have hh := takeSeq_halts_upstream (pullCounter_halts hH (0 + xs.length)) (xs.length : Int)
      (n : Int) (by omega)
    simpa using hh

theorem reduce_run {W σ I R : Type} [Seq W σ I] [Inhabited R] (f : R → I → W → R × W)
    {N : Nat} {s s1 s2 : σ} {steps : List (I × (W → W))} {err : GoError} {g : W → W}
    (hE : Emits W N s steps s1) (hH : Halts W N s1 err g s2) (initial : List R)
    (hinit : initial.length ≤ 1) (fuel : Nat) (w : W) (hfuel : N + steps.length + 1 ≤ fuel) :
    Reduce fuel s f initial w
      = some (Outcome.returned
          (steps.foldl (fun p st => f p.1 st.1 (st.2 p.2)) (initial.headD default, w)).1
          (if errorsIs (some err) Exhausted then none else some err) s2
          (g (steps.foldl (fun p st => f p.1 st.1 (st.2 p.2)) (initial.headD default, w)).2)) := by
  match initial, hinit with
  | [], _ =>
    simp only [Reduce, List.length_nil, gt_iff_lt, Nat.not_lt_zero, if_false, List.headD_nil]
    exact reduce_loop_run f hE hH fuel default w hfuel
  | [a], _ =>
    simp only [Reduce, List.length_singleton, gt_iff_lt, lt_self_iff_false, if_false,
      List.headD_cons]
    exact reduce_loop_run f hE hH fuel a w hfuel
  | _ :: _ :: _, h => simp at h

theorem forEach_quiet {W σ E : Type} [Seq W σ E] (f : E → W → W) {N : Nat} {s s1 s2 : σ}
    {xs : List E} {err : GoError} (hE : Emits W N s (quiet xs) s1)
    (hH : Halts W N s1 err id s2) (fuel : Nat) (w : W) (hfuel : N + xs.length < fuel) :
    ForEach f fuel s w
      = some ⟨if errorsIs (some err) Exhausted then none else some err, s2, visit f xs w⟩ := by
  have h := forEach_run f hE hH fuel w (by rw [quiet_length]; omega)
  have hq : (quiet (W := W) xs).foldl (fun w st => f st.1 (st.2 w)) w = visit f xs w :=
    foldl_quiet (fun w x => f x w) xs w (fun v => v) (fun _ x v => f x v) (fun _ _ => rfl)
  rw [hq] at h
  simpa using h

theorem reduce_quiet {W σ I R : Type} [Seq W σ I] [Inhabited R] (f : R → I → W → R × W)
    {N : Nat} {s s1 s2 : σ} {xs : List I} {err : GoError} (hE : Emits W N s (quiet xs) s1)
    (hH : Halts W N s1 err id s2) (initial : List R) (hinit : initial.length ≤ 1)
    (fuel : Nat) (w : W) (hfuel : N + xs.length < fuel) :
    Reduce fuel s f initial w
      = some (Outcome.returned (fold f xs (initial.headD default) w).1
          (if errorsIs (some err) Exhausted then none else some err) s2
          (fold f xs (initial.headD default) w).2) := by
  have h := reduce_run f hE hH initial hinit fuel w (by rw [quiet_length]; omega)
  have hq : (quiet (W := W) xs).foldl (fun p st => f p.1 st.1 (st.2 p.2))
      (initial.headD default, w) = fold f xs (initial.headD default) w :=
    foldl_quiet (fun p x => f p.1 x p.2) xs _ (fun p => p.2) (fun p x v => f p.1 x v)
      (fun _ _ => rfl)
  rw [hq] at h
  simpa using h

/-! ## Lemmas on Filter -/

theorem filterSteps_length {W E : Type} (q : E → Bool) (tick : E → W → W) (xs : List E) :
    ∀ pend : W → W, (filterSteps q tick pend xs).length ≤ xs.length := by
  induction xs with
  | nil => intro pend; simp [filterSteps]
  | cons x xs ih =>
    intro pend
    by_cases hq : q x = true
    · simp only [filterSteps, hq, if_true, List.length_cons]
      have := ih id
      omega
    · simp only [filterSteps, hq, if_false, List.length_cons, Bool.false_eq_true]
      have := ih (tick x ∘ pend)
      omega

theorem filterSteps_visit {W E : Type} (q : E → Bool) (tick : E → W → W) (f : E → W → W)
    (xs : List E) :
    ∀ (pend : W → W) (w : W),
      filterRest q tick pend xs
          ((filterSteps q tick pend xs).foldl (fun w st => f st.1 (st.2 w)) w)
        = filterVisit q tick f xs (pend w) := by
  induction xs with
  | nil => intro pend w; simp [filterSteps, filterRest, filterVisit]
  | cons x xs ih =>
    intro pend w
    by_cases hq : q x = true
    · simp only [filterSteps, filterRest, hq, if_true, List.foldl_cons, Function.comp_apply]
      rw [ih id]
      simp [filterVisit, hq]
    · simp only [filterSteps, filterRest, hq, if_false, Bool.false_eq_true]
      rw [ih (tick x ∘ pend)]
      simp [filterVisit, hq]

theorem filter_pull {W σ E : Type} [Seq W σ E] (q : E → Bool) (tick : E → W → W) {N : Nat}
    {s1 s2 : σ} {err : GoError} (hH : Halts W N s1 err id s2) (xs : List E) :
    ∀ (s : σ) (pend : W → W), Emits W N s (quiet xs) s1 →
      (filterSteps q tick pend xs = [] →
        ∀ k w, N + xs.length + 1 ≤ k →
          ∃ e, filterSeq.Next k (Filter s (effectful q tick)) (pend w)
            = some ⟨e, some err, Filter s2 (effectful q tick), filterRest q tick pend xs w⟩)
      ∧ (∀ y g more, filterSteps q tick pend xs = (y, g) :: more →
          ∃ sm t,
            (∀ k w, N + xs.length + 1 ≤ k →
              filterSeq.Next k (Filter s (effectful q tick)) (pend w) = some ⟨y, none, sm, g w⟩)
            ∧ Emits W (N + xs.length + 1) sm more t
            ∧ Halts W (N + xs.length + 1) t err (filterRest q tick pend xs)
                (Filter s2 (effectful q tick))) := by
  induction xs with
  | nil =>
    intro s pend hE
    cases hE
    refine ⟨?_, ?_⟩
    · intro _ k w hk
      obtain ⟨j, rfl⟩ : ∃ j, k = j + 1 := ⟨k - 1, by simp at hk; omega⟩
      obtain ⟨e, he⟩ := hH j (pend w) (by simp at hk; omega)
      exact ⟨e, by simp [filterSeq.Next, Filter, he, filterRest]⟩
    · intro y g more h
      simp [filterSteps] at h
  | cons x xs ih =>
    intro s pend hE
    cases hE with
    | @pull _ s' _ _ _ _ hp hrest =>
      have hrest' : Emits W N s' (quiet xs) s1 := hrest
      by_cases hq : q x = true
      · -- the first element passes
        obtain ⟨ih1, ih2⟩ := ih s' id hrest'
        refine ⟨?_, ?_⟩
        · intro h
          simp [filterSteps, hq] at h
        · intro y g more h
          simp only [filterSteps, hq, if_true, List.cons.injEq, Prod.mk.injEq] at h
          obtain ⟨⟨rfl, rfl⟩, rfl⟩ := h
          have hfirst : ∀ k w, N + (x :: xs).length + 1 ≤ k →
              filterSeq.Next k (Filter s (effectful q tick)) (pend w)
                = some ⟨x, none, Filter s' (effectful q tick), (tick x ∘ pend) w⟩ := by
            intro k w hk
            obtain ⟨j, rfl⟩ : ∃ j, k = j + 1 := ⟨k - 1, by simp at hk; omega⟩
            have hu := hp j (pend w) (by simp at hk; omega)
            simp [filterSeq.Next, Filter, hu, effectful, hq]
          have hmono : N + xs.length + 1 ≤ N + (x :: xs).length + 1 := by simp
          cases hm : filterSteps q tick id xs with
          | nil =>
            refine ⟨_, Filter s' (effectful q tick), hfirst, Emits.done _, ?_⟩
            intro k w hk
            have := ih1 hm k w (le_trans hmono hk)
            simpa [filterRest, hq] using this
          | cons st more' =>
            obtain ⟨y', g'⟩ := st
            obtain ⟨sm, t, hn, hem, hha⟩ := ih2 y' g' more' hm
            refine ⟨_, t, hfirst, ?_, ?_⟩
            · refine @Emits.pull W _ _ _ _ _ (sm) _ _ _ _ ?_ (emits_mono hem hmono)
              intro k w hk
              have := hn k w (le_trans hmono hk)
              simpa [Seq.Next] using this
            · have := halts_mono hha hmono
              simpa [filterRest, hq] using this
      · -- the first element is rejected: the method calls itself
        obtain ⟨ih1, ih2⟩ := ih s' (tick x ∘ pend) hrest'
        have hstep : ∀ k w, N + (x :: xs).length + 1 ≤ k →
            ∃ j, k = j + 1 ∧ N + xs.length + 1 ≤ j ∧
              filterSeq.Next k (Filter s (effectful q tick)) (pend w)
                = filterSeq.Next j (Filter s' (effectful q tick)) ((tick x ∘ pend) w) := by
          intro k w hk
          obtain ⟨j, rfl⟩ : ∃ j, k = j + 1 := ⟨k - 1, by simp at hk; omega⟩
          have hu := hp j (pend w) (by simp at hk; omega)
          refine ⟨j, rfl, by simp at hk; omega, ?_⟩
          simp [filterSeq.Next, Filter, hu, effectful, hq]
        refine ⟨?_, ?_⟩
        · intro h k w hk
          simp only [filterSteps, hq, if_false, Bool.false_eq_true] at h
          obtain ⟨j, _, hj, heq⟩ := hstep k w hk
          obtain ⟨e, he⟩ := ih1 h j w hj
          exact ⟨e, by rw [heq, he]; simp [filterRest, hq]⟩
        · intro y g more h
          simp only [filterSteps, hq, if_false, Bool.false_eq_true] at h
          obtain ⟨sm, t, hn, hem, hha⟩ := ih2 y g more h
          have hmono : N + xs.length + 1 ≤ N + (x :: xs).length + 1 := by simp
          refine ⟨sm, t, ?_, emits_mono hem hmono, ?_⟩
          · intro k w hk
            obtain ⟨j, _, hj, heq⟩ := hstep k w hk
            rw [heq]
            exact hn j w hj
          · have := halts_mono hha hmono
            simpa [filterRest, hq] using this

/-- A filter over an upstream that quietly emits `xs` and then fails with `err`
emits `filterSteps` and then fails with `err`. -/
theorem filter_run {W σ E : Type} [Seq W σ E] (q : E → Bool) (tick : E → W → W) {N : Nat}
    {s s1 s2 : σ} {err : GoError} {xs : List E} (hE : Emits W N s (quiet xs) s1)
    (hH : Halts W N s1 err id s2) :
    ∃ t, Emits W (N + xs.length + 1) (Filter s (effectful q tick))
          (filterSteps q tick id xs) t
      ∧ Halts W (N + xs.length + 1) t err (filterRest q tick id xs)
          (Filter s2 (effectful q tick)) := by
  obtain ⟨h1, h2⟩ := filter_pull q tick hH xs s id hE
  cases hm : filterSteps q tick id xs with
  | nil =>
    refine ⟨_, Emits.done _, ?_⟩
    intro k w hk
    simpa [Seq.Next] using h1 hm k w hk
  | cons st more =>
    obtain ⟨y, g⟩ := st
    obtain ⟨sm, t, hn, hem, hha⟩ := h2 y g more hm
    refine ⟨t, @Emits.pull W _ _ _ _ _ (sm) _ _ _ _ ?_ hem, hha⟩
    intro k w hk
    simpa [Seq.Next] using hn k w hk

theorem filterSteps_collect {W E : Type} (q : E → Bool) (tick : E → W → W) (xs : List E) :
    ∀ (pend : W → W) (a : List E) (w : W),
      (((filterSteps q tick pend xs).foldl
            (fun p st => collect p.1 st.1 (st.2 p.2)) (a, w)).1,
        filterRest q tick pend xs ((filterSteps q tick pend xs).foldl
            (fun p st => collect p.1 st.1 (st.2 p.2)) (a, w)).2)
        = (a ++ xs.filter q, visit tick xs (pend w)) := by
  induction xs with
  | nil => intro pend a w; simp [filterSteps, filterRest, visit]
  | cons x xs ih =>
    intro pend a w
    by_cases hq : q x = true
    · simp only [filterSteps, filterRest, hq, if_true, List.foldl_cons, Function.comp_apply,
        collect]
      have h := ih id (a ++ [x]) (tick x (pend w))
      simp only [collect, id_eq] at h
      rw [h]
      simp [visit, hq]
    · simp only [filterSteps, filterRest, hq, if_false, Bool.false_eq_true]
      have h := ih (tick x ∘ pend) a w
      rw [h]
      simp [visit, hq]

theorem filterVisit_pure {W E : Type} (q : E → Bool) (f : E → W → W) (xs : List E) :
    ∀ w : W, filterVisit q (fun _ w => w) f xs w = visit f (xs.filter q) w := by
  induction xs with
  | nil => intro w; rfl
  | cons x xs ih =>
    intro w
    by_cases hq : q x = true
    · simp only [filterVisit, visit, List.foldl_cons, hq, if_true, List.filter_cons_of_pos]
      exact ih _
    · simp only [filterVisit, visit, List.foldl_cons, hq, if_false, Bool.false_eq_true]
      rw [List.filter_cons_of_neg (by simpa using hq)]
      exact ih _

/-! ## Lemmas on Map -/

theorem map_emits {W σ I O : Type} [Seq W σ I] [Inhabited O] (m : I → O) (tick : I → W → W)
    {N : Nat} {s s1 : σ} {steps : List (I × (W → W))} (hE : Emits W N s steps s1) :
    Emits W N (Map s (effectful m tick))
      (steps.map fun st => (m st.1, tick st.1 ∘ st.2)) (Map s1 (effectful m tick)) := by
  induction hE with
  | done s => exact Emits.done _
  | @pull a b c x g rest hp _ ih =>
    refine @Emits.pull W _ _ _ _ _ (Map b (effectful m tick)) _ _ _ _ ?_ ih
    intro fuel w hf
    simp [Seq.Next, mapSeq.Next, Map, hp fuel w hf, effectful]

theorem map_halts {W σ I O : Type} [Seq W σ I] [Inhabited O] (m : I → W → O × W)
    {N : Nat} {s s1 : σ} {err : GoError} {g : W → W} (hH : Halts W N s err g s1) :
    Halts W N (Map s m) err g (Map s1 m) := by
  intro fuel w hf
  obtain ⟨e, he⟩ := hH fuel w hf
  exact ⟨default, by simp [Seq.Next, mapSeq.Next, Map, he]⟩

theorem map_quiet_visit {W I O : Type} (m : I → O) (tick : I → W → W) (f : O → W → W)
    (xs : List I) (w : W) :
    ((quiet (W := W) xs).map fun st => (m st.1, tick st.1 ∘ st.2)).foldl
        (fun w st => f st.1 (st.2 w)) w
      = xs.foldl (fun w x => f (m x) (tick x w)) w := by
  induction xs generalizing w with
  | nil => rfl
  | cons x xs ih =>
    simp only [quiet, List.map_cons, List.foldl_cons, Function.comp_apply, id_eq]
    exact ih _

theorem map_quiet_collect {W I O : Type} (m : I → O) (tick : I → W → W) (xs : List I) :
    ∀ (a : List O) (w : W),
      ((quiet (W := W) xs).map fun st => (m st.1, tick st.1 ∘ st.2)).foldl
          (fun p st => collect p.1 st.1 (st.2 p.2)) (a, w)
        = (a ++ xs.map m, visit tick xs w) := by
  induction xs with
  | nil => intro a w; simp [quiet, visit]
  | cons x xs ih =>
    intro a w
    simp only [quiet, List.map_cons, List.foldl_cons, Function.comp_apply, id_eq, collect]
    have h := ih (a ++ [m x]) (tick x w)
    simp only [quiet, collect] at h
    rw [h]
    simp [visit]

/-! ## Lemmas on Reduce -/

theorem reduce_loop_never_panics {W σ I R : Type} [Seq W σ I] (f : R → I → W → R × W) :
    ∀ (fuel : Nat) (r : R) (s : σ) (w : W) (msg : String) (s1 : σ) (w1 : W),
      Reduce.loop f fuel r s w ≠ some (Outcome.panicked msg s1 w1) := by
  intro fuel
  induction fuel with
  | zero => intro r s w msg s1 w1; simp [Reduce.loop]
  | succ k ih =>
    intro r s w msg s1 w1
    rw [Reduce.loop]
    cases hn : Seq.Next k s w with
    | none => simp
    | some p =>
      simp only
      split
      · simp
      · split
        · simp
        · exact ih _ _ _ _ _ _

/-! ## The claims -/

/-- C1. `Reduce(FromSlice(xs), f, initial...)` with zero or one initial value
returns `(foldl f a xs, nil)`, where `a` is the initial value or the zero
value of `R`: the accumulator and the world are those obtained by calling the
reducer once on each element, left to right; a reducer that logs its calls has
logged exactly `xs`; and on the empty slice with no initial value the result is
the zero value and the world is untouched (the reducer is never called). -/
theorem reduce_fromSlice {E R : Type} [Inhabited E] [Inhabited R] (xs : List E)
    (initial : List R) (fuel : Nat) (hinit : initial.length ≤ 1)
    (hfuel : xs.length < fuel) :
    (∀ (W : Type) (f : R → E → W → R × W) (w : W),
      Reduce fuel (FromSlice xs) f initial w
        = some (Outcome.returned (fold f xs (initial.headD default) w).1 none
            ⟨xs, xs.length⟩ (fold f xs (initial.headD default) w).2))
    ∧ (∀ (g : R → E → R),
      Reduce fuel (FromSlice xs) (loggedReducer g) initial []
        = some (Outcome.returned (xs.foldl g (initial.headD default)) none
            ⟨xs, xs.length⟩ xs))
    ∧ (∀ (W : Type) (f : R → E → W → R × W) (w : W),
      Reduce fuel (FromSlice ([] : List E)) f ([] : List R) w
        = some (Outcome.returned default none ⟨[], 0⟩ w)) := by
  have key : ∀ (W : Type) (f : R → E → W → R × W) (w : W),
      Reduce fuel (FromSlice xs) f initial w
        = some (Outcome.returned (fold f xs (initial.headD default) w).1 none
            ⟨xs, xs.length⟩ (fold f xs (initial.headD default) w).2) := by
    intro W f w
    simp only [fold]
    match initial, hinit with
    | [], _ =>
      simp only [Reduce, List.length_nil, gt_iff_lt, Nat.not_lt_zero, if_false,
        List.headD_nil]
      exact reduceLoop_slice xs f default w fuel hfuel
    | [a], _ =>
      simp only [Reduce, List.length_singleton, gt_iff_lt, lt_self_iff_false, if_false,
        List.headD_cons]
      exact reduceLoop_slice xs f a w fuel hfuel
    | _ :: _ :: _, h => simp at h
  refine ⟨key, ?_, ?_⟩
  · intro g
    rw [key, fold, foldl_loggedReducer]
    simp
  · intro W f w
    have h := reduceLoop_slice ([] : List E) f (default : R) w fuel (by simp; omega)
    simpa [Reduce] using h

/-- C1, at a concrete input: summing `[1, 2, 3]` from the initial value `10`. -/
theorem reduce_fromSlice_witness :
    Reduce 4 (FromSlice [1, 2, 3]) (loggedReducer (fun (r x : Nat) => r + x)) [10] []
      = some (Outcome.returned 16 none ⟨[1, 2, 3], 3⟩ [1, 2, 3]) :=
  (reduce_fromSlice [1, 2, 3] [10] 4 (by decide) (by decide)).2.1 (fun r x => r + x)

/-- C2. `ForEach(FromSlice(xs), f)` returns nil after calling `f` once on each
element of `xs` in index order: the world is the one obtained by running `f`
over `xs` from left to right, and an `f` that logs its argument has logged
exactly `xs`. -/
theorem forEach_fromSlice {E : Type} [Inhabited E] (xs : List E) (fuel : Nat)
    (hfuel : xs.length < fuel) :
    (∀ (W : Type) (f : E → W → W) (w : W),
      ForEach f fuel (FromSlice xs) w = some ⟨none, ⟨xs, xs.length⟩, visit f xs w⟩)
    ∧ ForEach (fun x log => log ++ [x]) fuel (FromSlice xs) []
        = some ⟨none, ⟨xs, xs.length⟩, xs⟩ := by
  have key : ∀ (W : Type) (f : E → W → W) (w : W),
      ForEach f fuel (FromSlice xs) w = some ⟨none, ⟨xs, xs.length⟩, visit f xs w⟩ := by
    intro W f w
    have h := forEach_quiet f (sliceSeq_emits (W := W) xs)
      (sliceSeq_halts (W := W) xs xs.length (le_refl _)) fuel w (by omega)
    simpa [errorsIs_exhausted, Exhausted] using h
  refine ⟨key, ?_⟩
  rw [key, visit, foldl_append_log]
  simp

/-- C2, at a concrete input: the calls made on `[7, 8, 9]`. -/
theorem forEach_fromSlice_witness :
    ForEach (fun x log => log ++ [x]) 4 (FromSlice [7, 8, 9]) []
      = some ⟨none, ⟨[7, 8, 9], 3⟩, [7, 8, 9]⟩ :=
  (forEach_fromSlice [7, 8, 9] 4 (by decide)).2

/-- C3. Draining `Take(s, n)`, `n` a natural number, over an upstream watched
by a pull counter.  If the upstream emits `xs` and then reports `Exhausted`,
both terminal operations see exactly `xs.take n` (the first `min n |xs|`
elements, in order) and return nil, after `min n (|xs| + 1)` pulls on the
upstream, which is at most `n + 1`.  If the upstream emits at least `n`
elements (it may be infinite), they see exactly the first `n` after exactly `n`
pulls.  A take whose counter has reached the limit answers `Exhausted` and
leaves the upstream as it is. -/
theorem take_drains {W σ E : Type} [Seq W σ E] [Inhabited E] (n N : Nat) (s : σ)
    (fuel : Nat) (hfuel : N + n < fuel) :
    (∀ (xs : List E) (s1 s2 : σ), Emits W N s (quiet xs) s1 →
        Halts W N s1 GoError.exhausted id s2 →
        ∃ u : σ, (xs.take n).length = min n xs.length ∧ min n (xs.length + 1) ≤ n + 1 ∧
          (∀ (f : E → W → W) (w : W),
            ForEach f fuel (Take (⟨s, 0⟩ : pullCounter σ) n) w
              = some ⟨none, ⟨(min n (xs.length + 1) : Nat), n, ⟨u, min n (xs.length + 1)⟩⟩,
                  visit f (xs.take n) w⟩) ∧
          (∀ (R : Type) [Inhabited R] (f : R → E → W → R × W) (a : R) (w : W),
            Reduce fuel (Take (⟨s, 0⟩ : pullCounter σ) n) f [a] w
              = some (Outcome.returned (fold f (xs.take n) a w).1 none
                  ⟨(min n (xs.length + 1) : Nat), n, ⟨u, min n (xs.length + 1)⟩⟩
                  (fold f (xs.take n) a w).2)))
    ∧ (∀ (ys : List E) (s1 : σ), Emits W N s (quiet ys) s1 → ys.length = n →
          (∀ (f : E → W → W) (w : W),
            ForEach f fuel (Take (⟨s, 0⟩ : pullCounter σ) n) w
              = some ⟨none, ⟨n, n, ⟨s1, n⟩⟩, visit f ys w⟩) ∧
          (∀ (R : Type) [Inhabited R] (f : R → E → W → R × W) (a : R) (w : W),
            Reduce fuel (Take (⟨s, 0⟩ : pullCounter σ) n) f [a] w
              = some (Outcome.returned (fold f ys a w).1 none ⟨n, n, ⟨s1, n⟩⟩
                  (fold f ys a w).2)))
    ∧ (∀ (c : Int) (u : pullCounter σ) (k : Nat) (w : W), (n : Int) ≤ c →
          takeSeq.Next k (⟨c, n, u⟩ : takeSeq (pullCounter σ)) w
            = some ⟨default, Exhausted, ⟨c, n, u⟩, w⟩) := by
  refine ⟨?_, ?_, ?_⟩
  · intro xs s1 s2 hE hH
    obtain ⟨u, t, hte, hth⟩ := take_run n hE hH
    have hl : (xs.take n).length ≤ n := by simp
    refine ⟨u, by simp, by omega, ?_, ?_⟩
    · intro f w
      have h := forEach_quiet f hte hth fuel w (by omega)
      simpa [errorsIs_exhausted, Exhausted] using h
    · intro R _ f a w
      have h := reduce_quiet f hte hth [a] (by simp) fuel w (by omega)
      simpa [errorsIs_exhausted, Exhausted] using h
  · intro ys s1 hE hlen
    have hc := pullCounter_emits hE 0
    have ht := takeSeq_emits hc (n : Int) 0 (by rw [quiet_length]; omega)
    rw [quiet_length, hlen] at ht
    simp only [zero_add] at ht
    have hh : Halts W N (⟨n, n, ⟨s1, n⟩⟩ : takeSeq (pullCounter σ)) GoError.exhausted id
        ⟨n, n, ⟨s1, n⟩⟩ :=
      halts_mono (takeSeq_halts_limit (n : Int) (n : Int) _ (le_refl _)) (Nat.zero_le N)
    refine ⟨?_, ?_⟩
    · intro f w
      have h := forEach_quiet f ht hh fuel w (by omega)
      simpa [errorsIs_exhausted, Exhausted, Take] using h
    · intro R _ f a w
      have h := reduce_quiet f ht hh [a] (by simp) fuel w (by omega)
      simpa [errorsIs_exhausted, Exhausted, Take] using h
  · intro c u k w hc
    simp [takeSeq.Next, hc]

/-- C3, at a concrete input: taking 2 of the slice `[5, 6, 7]` pulls it twice. -/
theorem take_drains_witness :
    ForEach (fun x log => log ++ [x]) 3
        (Take (⟨FromSlice [5, 6, 7], 0⟩ : pullCounter (sliceSeq Nat)) 2) []
      = some ⟨none, ⟨2, 2, ⟨⟨[5, 6, 7], 2⟩, 2⟩⟩, [5, 6]⟩ :=
  ((take_drains 2 0 (FromSlice [5, 6, 7]) 3 (by decide)).2.1 [5, 6] ⟨[5, 6, 7], 2⟩
    (Emits.pull (fun _ _ _ => rfl) (Emits.pull (fun _ _ _ => rfl) (Emits.done _)))
    rfl).1 (fun x log => log ++ [x]) []

/-- C4. Draining `Filter(s, p)` over a finite upstream that emits `xs` and then
reports `Exhausted`, watched by a pull counter; `p` decides by `q` and does
`tick` to the world.  Collecting with `Reduce` returns exactly
`List.filter q xs` with a nil error; the world is the one obtained by running
the test once on every element of `xs` in order; the upstream has been pulled
`|xs| + 1` times, once per element and once for the end.  With `ForEach`, each
passing element is handed to `f` right after its test, and with a predicate
that has no effect `f` sees exactly `List.filter q xs`. -/
theorem filter_drains {W σ E : Type} [Seq W σ E] (N : Nat) (s s1 s2 : σ) (xs : List E)
    (fuel : Nat) (hE : Emits W N s (quiet xs) s1)
    (hH : Halts W N s1 GoError.exhausted id s2) (hfuel : N + 2 * xs.length + 1 < fuel) :
    (∀ (q : E → Bool) (tick : E → W → W) (w : W),
      Reduce fuel (Filter (⟨s, 0⟩ : pullCounter σ) (effectful q tick)) collect [[]] w
        = some (Outcome.returned (xs.filter q) none
            (Filter ⟨s2, xs.length + 1⟩ (effectful q tick)) (visit tick xs w)))
    ∧ (∀ (q : E → Bool) (tick : E → W → W) (f : E → W → W) (w : W),
      ForEach f fuel (Filter (⟨s, 0⟩ : pullCounter σ) (effectful q tick)) w
        = some ⟨none, Filter ⟨s2, xs.length + 1⟩ (effectful q tick),
            filterVisit q tick f xs w⟩)
    ∧ (∀ (q : E → Bool) (f : E → W → W) (w : W),
      ForEach f fuel (Filter (⟨s, 0⟩ : pullCounter σ) (pure1 q : Predicate W E)) w
        = some ⟨none, Filter ⟨s2, xs.length + 1⟩ (pure1 q), visit f (xs.filter q) w⟩) := by
  have hE' := pullCounter_emits hE 0
  have hH' := pullCounter_halts hH (0 + (quiet (W := W) xs).length)
  rw [quiet_length] at hE' hH'
  simp only [zero_add] at hE' hH'
  have hfe : ∀ (q : E → Bool) (tick : E → W → W) (f : E → W → W) (w : W),
      ForEach f fuel (Filter (⟨s, 0⟩ : pullCounter σ) (effectful q tick)) w
        = some ⟨none, Filter ⟨s2, xs.length + 1⟩ (effectful q tick),
            filterVisit q tick f xs w⟩ := by
    intro q tick f w
    obtain ⟨t, hte, hth⟩ := filter_run q tick hE' hH'
    have hl := filterSteps_length q tick xs (id : W → W)
    have h := forEach_run f hte hth fuel w (by omega)
    rw [filterSteps_visit] at h
    simpa [errorsIs_exhausted, Exhausted] using h
  refine ⟨?_, hfe, ?_⟩
  · intro q tick w
    obtain ⟨t, hte, hth⟩ := filter_run q tick hE' hH'
    have hl := filterSteps_length q tick xs (id : W → W)
    have h := reduce_run collect hte hth [[]] (by simp) fuel w (by omega)
    have hc := filterSteps_collect q tick xs (id : W → W) [] w
    simp only [List.headD_cons] at h
    rw [Prod.mk.injEq] at hc
    rw [hc.1, hc.2] at h
    simpa [errorsIs_exhausted, Exhausted] using h
  · intro q f w
    have h := hfe q (fun _ w => w) f w
    have hv := filterVisit_pure q f xs w
    rw [hv] at h
    exact h

/-- C4, at a concrete input: the even elements of `[1, 2, 3, 4]`, with the
tests logged. -/
theorem filter_drains_witness :
    Reduce 10 (Filter (⟨FromSlice [1, 2, 3, 4], 0⟩ : pullCounter (sliceSeq Nat))
        (effectful (fun x => x % 2 == 0) (fun x log => log ++ [x]))) collect [[]] []
      = some (Outcome.returned [2, 4] none
          (Filter ⟨⟨[1, 2, 3, 4], 4⟩, 5⟩
            (effectful (fun x => x % 2 == 0) (fun x log => log ++ [x])))
          [1, 2, 3, 4]) :=
  (filter_drains 0 (FromSlice [1, 2, 3, 4]) ⟨[1, 2, 3, 4], 4⟩ ⟨[1, 2, 3, 4], 4⟩ [1, 2, 3, 4]
    10 (sliceSeq_emits [1, 2, 3, 4]) (sliceSeq_halts [1, 2, 3, 4] 4 (by decide))
    (by decide)).1 (fun x => x % 2 == 0) (fun x log => log ++ [x]) []

/-- C5. Draining `Map(s, f)` over a finite upstream that emits `xs` and then
reports `Exhausted`, watched by a pull counter; `f` returns `m x` and does
`tick` to the world.  Collecting with `Reduce` returns exactly `List.map m xs`
with a nil error, a list as long as `xs` whose i-th entry is `m` of the i-th
entry of `xs`; the mapper has run once per element, in order; the upstream has
been pulled `|xs| + 1` times.  `ForEach` hands `m x` to its function right
after mapping `x`.  After the last element the map answers `Exhausted`. -/
theorem map_drains {W σ I O : Type} [Seq W σ I] [Inhabited O] (N : Nat) (s s1 s2 : σ)
    (xs : List I) (fuel : Nat) (hE : Emits W N s (quiet xs) s1)
    (hH : Halts W N s1 GoError.exhausted id s2) (hfuel : N + xs.length < fuel) :
    (∀ (m : I → O) (tick : I → W → W) (w : W),
      Reduce fuel (Map (⟨s, 0⟩ : pullCounter σ) (effectful m tick)) collect [[]] w
        = some (Outcome.returned (xs.map m) none
            (Map ⟨s2, xs.length + 1⟩ (effectful m tick)) (visit tick xs w)))
    ∧ (∀ (m : I → O), (xs.map m).length = xs.length
        ∧ ∀ (i : Nat) (hi : i < xs.length), (xs.map m)[i]? = some (m (xs.get ⟨i, hi⟩)))
    ∧ (∀ (m : I → O) (tick : I → W → W) (f : O → W → W) (w : W),
      ForEach f fuel (Map (⟨s, 0⟩ : pullCounter σ) (effectful m tick)) w
        = some ⟨none, Map ⟨s2, xs.length + 1⟩ (effectful m tick),
            xs.foldl (fun w x => f (m x) (tick x w)) w⟩)
    ∧ (∀ (m : I → W → O × W) (k : Nat) (w : W), N ≤ k →
      mapSeq.Next k (Map (⟨s1, xs.length⟩ : pullCounter σ) m) w
        = some ⟨default, Exhausted, Map ⟨s2, xs.length + 1⟩ m, w⟩) := by
  have hE' := pullCounter_emits hE 0
  have hH' := pullCounter_halts hH (0 + (quiet (W := W) xs).length)
  rw [quiet_length] at hE' hH'
  simp only [zero_add] at hE' hH'
  refine ⟨?_, ?_, ?_, ?_⟩
  · intro m tick w
    have h := reduce_run collect (map_emits m tick hE') (map_halts (effectful m tick) hH')
      [[]] (by simp) fuel w (by simp [quiet]; omega)
    rw [map_quiet_collect] at h
    simpa [errorsIs_exhausted, Exhausted] using h
  · intro m
    refine ⟨by simp, ?_⟩
    intro i hi
    simp [List.getElem?_eq_getElem hi]
  · intro m tick f w
    have h := forEach_run f (map_emits m tick hE') (map_halts (effectful m tick) hH')
      fuel w (by simp [quiet]; omega)
    rw [map_quiet_visit] at h
    simpa [errorsIs_exhausted, Exhausted] using h
  · intro m k w hk
    obtain ⟨e, he⟩ := hH' k w hk
    simp [mapSeq.Next, Map, he, Exhausted]

/-- C5, at a concrete input: doubling `[1, 2, 3]`, with the mapper calls logged. -/
theorem map_drains_witness :
    Reduce 4 (Map (⟨FromSlice [1, 2, 3], 0⟩ : pullCounter (sliceSeq Nat))
        (effectful (fun x => 2 * x) (fun x log => log ++ [x]))) collect [[]] []
      = some (Outcome.returned [2, 4, 6] none
          (Map ⟨⟨[1, 2, 3], 3⟩, 4⟩ (effectful (fun x => 2 * x) (fun x log => log ++ [x])))
          [1, 2, 3]) :=
  (map_drains 0 (FromSlice [1, 2, 3]) ⟨[1, 2, 3], 3⟩ ⟨[1, 2, 3], 3⟩ [1, 2, 3] 4
    (sliceSeq_emits [1, 2, 3]) (sliceSeq_halts [1, 2, 3] 3 (by decide))
    (by decide)).1 (fun x => 2 * x) (fun x log => log ++ [x]) []

/-- C6. If a pull on the upstream returns a non-nil error `err` (`Exhausted`
or any other), leaving the upstream in state `s1` and the world as `w1`, then
that same pull on `Map`, `MapE`, `Filter` and on a `Take` whose counter is
below its limit returns exactly `err`, with the upstream in state `s1` and the
world still `w1`: whatever the mapper or the predicate would do to the world
has not been done, so it has not been called. -/
theorem upstream_error_unchanged {W σ E : Type} [Seq W σ E] [Inhabited E] (fuel : Nat)
    (s s1 : σ) (w w1 : W) (e : E) (err : GoError)
    (hpull : Seq.Next fuel s w = some ⟨e, some err, s1, w1⟩) :
    (∀ (O : Type) [Inhabited O] (m : E → W → O × W),
      mapSeq.Next fuel (Map s m) w = some ⟨default, some err, Map s1 m, w1⟩)
    ∧ (∀ (O : Type) [Inhabited O] (m : E → W → (O × error) × W),
      mapESeq.Next fuel (MapE s m) w = some ⟨default, some err, MapE s1 m, w1⟩)
    ∧ (∀ (p : Predicate W E),
      filterSeq.Next (fuel + 1) (Filter s p) w = some ⟨e, some err, Filter s1 p, w1⟩)
    ∧ (∀ (current limit : Int), current < limit →
      takeSeq.Next fuel (⟨current, limit, s⟩ : takeSeq σ) w
        = some ⟨e, some err, ⟨current + 1, limit, s1⟩, w1⟩) := by
  refine ⟨?_, ?_, ?_, ?_⟩
  · intro O _ m
    simp [mapSeq.Next, Map, hpull]
  · intro O _ m
    simp [mapESeq.Next, MapE, hpull]
  · intro p
    simp [filterSeq.Next, Filter, hpull]
  · intro current limit hlt
    have hn : ¬ limit ≤ current := by omega
    simp [takeSeq.Next, hn, hpull]

/-- C6, at a concrete input: a mapper that would log its call, over the
exhausted slice `[4]`. -/
theorem upstream_error_unchanged_witness :
    mapSeq.Next 0 (Map (⟨[4], 1⟩ : sliceSeq Nat) (effectful (fun x => x + 1)
        (fun x (log : List Nat) => log ++ [x]))) []
      = some ⟨default, some GoError.exhausted,
          Map ⟨[4], 1⟩ (effectful (fun x => x + 1) (fun x log => log ++ [x])), []⟩ :=
  (upstream_error_unchanged 0 (⟨[4], 1⟩ : sliceSeq Nat) ⟨[4], 1⟩ ([] : List Nat) [] default
    GoError.exhausted rfl).1 Nat (effectful (fun x => x + 1) (fun x log => log ++ [x]))

/-- C7. If the upstream pull succeeds with element `x`, the pull on
`MapE(s, m)` returns exactly what `m x` returns, value and error alike, and
the world is the one `m` leaves; nothing is special-cased, so when the error of
`m x` is `Exhausted` the pull returns `Exhausted`. -/
theorem mapE_returns_mapper {W σ I O : Type} [Seq W σ I] [Inhabited O] (fuel : Nat)
    (s s1 : σ) (w w1 : W) (x : I) (m : I → W → (O × error) × W)
    (hpull : Seq.Next fuel s w = some ⟨x, none, s1, w1⟩) :
    mapESeq.Next fuel (MapE s m) w
        = some ⟨(m x w1).1.1, (m x w1).1.2, MapE s1 m, (m x w1).2⟩
    ∧ ((m x w1).1.2 = Exhausted →
        mapESeq.Next fuel (MapE s m) w
          = some ⟨(m x w1).1.1, Exhausted, MapE s1 m, (m x w1).2⟩) := by
  have h : mapESeq.Next fuel (MapE s m) w
      = some ⟨(m x w1).1.1, (m x w1).1.2, MapE s1 m, (m x w1).2⟩ := by
    simp [mapESeq.Next, MapE, hpull]
  refine ⟨h, ?_⟩
  intro hx
  rw [h, hx]

/-- C7, at a concrete input: a mapper that answers `(9, Exhausted)` on 5. -/
theorem mapE_returns_mapper_witness :
    mapESeq.Next 0 (MapE (FromSlice [5]) (fun (_ : Nat) (w : Unit) => (((9 : Nat), Exhausted), w))) ()
      = some ⟨9, Exhausted, MapE ⟨[5], 1⟩ (fun (_ : Nat) (w : Unit) => (((9 : Nat), Exhausted), w)), ()⟩ :=
  (mapE_returns_mapper 0 (FromSlice [5]) ⟨[5], 1⟩ () () 5
    (fun (_ : Nat) (w : Unit) => (((9 : Nat), Exhausted), w)) rfl).2 rfl

/-- C8. `Reduce` called with two or more initial values panics at once,
whatever the fuel: the sequence is in the state it was given in (no pull) and
the world is untouched (the reducer was not called).  With zero or one initial
value `Reduce` never panics. -/
theorem reduce_panics_iff {W σ I R : Type} [Seq W σ I] [Inhabited R] (s : σ)
    (f : R → I → W → R × W) (initial : List R) (w : W) :
    (2 ≤ initial.length → ∀ fuel : Nat,
      Reduce fuel s f initial w
        = some (Outcome.panicked "more then one initial value given" s w))
    ∧ (initial.length ≤ 1 → ∀ (fuel : Nat) (msg : String) (s1 : σ) (w1 : W),
      Reduce fuel s f initial w ≠ some (Outcome.panicked msg s1 w1)) := by
  refine ⟨?_, ?_⟩
  · intro h fuel
    have h1 : initial.length > 1 := by omega
    simp [Reduce, h1]
  · intro h fuel msg s1 w1
    have h1 : ¬ initial.length > 1 := by omega
    simp only [Reduce, h1, if_false]
    exact reduce_loop_never_panics f fuel _ s w msg s1 w1

/-- C8, at a concrete input: two initial values over a counted slice. -/
theorem reduce_panics_iff_witness :
    Reduce 5 (⟨FromSlice [1, 2], 0⟩ : pullCounter (sliceSeq Nat))
        (loggedReducer (fun (r x : Nat) => r + x)) [3, 4] []
      = some (Outcome.panicked "more then one initial value given"
          ⟨FromSlice [1, 2], 0⟩ []) :=
  (reduce_panics_iff (⟨FromSlice [1, 2], 0⟩ : pullCounter (sliceSeq Nat))
    (loggedReducer (fun (r x : Nat) => r + x)) [3, 4] []).1 (by decide) 5

theorem sliceSeq_nthPull {W E : Type} [Inhabited E] (xs : List E) (fuel : Nat) (w : W) :
    ∀ (k i : Nat),
      nthPull fuel k (⟨xs, i⟩ : sliceSeq E) w
        = some (if h : i + k < xs.length then ⟨xs.get ⟨i + k, h⟩, none, ⟨xs, i + k + 1⟩, w⟩
            else ⟨default, Exhausted, ⟨xs, max i xs.length⟩, w⟩) := by
  intro k
  induction k with
  | zero =>
    intro i
    by_cases h : i < xs.length
    · have hn : ¬ xs.length ≤ i := by omega
      simp [nthPull, Seq.Next, sliceSeq.Next, h, hn]
    · have hn : xs.length ≤ i := by omega
      simp [nthPull, Seq.Next, sliceSeq.Next, h, hn]
  | succ k ih =>
    intro i
    by_cases h : i < xs.length
    · have hn : ¬ xs.length ≤ i := by omega
      simp only [nthPull, Seq.Next, sliceSeq.Next, ge_iff_le, hn, dite_false]
      rw [ih (i + 1)]
      have e1 : i + 1 + k = i + (k + 1) := by omega
      have e2 : max (i + 1) xs.length = max i xs.length := by omega
      simp only [e1, e2]
    · have hn : xs.length ≤ i := by omega
      have h2 : ¬ i + (k + 1) < xs.length := by omega
      have h3 : ¬ i + k < xs.length := by omega
      simp only [nthPull, Seq.Next, sliceSeq.Next, ge_iff_le, hn, dite_true]
      rw [ih i]
      simp [h2, h3]

/-- C12. The pull number `k` on `FromSlice(xs)` returns `(xs[k], nil)` and
moves the cursor to `k + 1` when `k < len(xs)`; for every `k >= len(xs)` it
returns `Exhausted` and the cursor stays at `len(xs)`. -/
theorem fromSlice_nthPull {W E : Type} [Inhabited E] (xs : List E) (fuel : Nat) (w : W) :
    (∀ (k : Nat) (h : k < xs.length),
      nthPull fuel k (FromSlice xs) w = some ⟨xs.get ⟨k, h⟩, none, ⟨xs, k + 1⟩, w⟩)
    ∧ (∀ k : Nat, xs.length ≤ k →
      nthPull fuel k (FromSlice xs) w = some ⟨default, Exhausted, ⟨xs, xs.length⟩, w⟩) := by
  refine ⟨?_, ?_⟩
  · intro k h
    have := sliceSeq_nthPull xs fuel w k 0
    simpa [FromSlice, h] using this
  · intro k h
    have hn : ¬ k < xs.length := by omega
    have := sliceSeq_nthPull xs fuel w k 0
    simpa [FromSlice, hn] using this

/-- C12, at a concrete input: pull number 5 on a slice of length 2. -/
theorem fromSlice_nthPull_witness :
    nthPull 0 5 (FromSlice [7, 8]) () = some ⟨default, Exhausted, ⟨[7, 8], 2⟩, ()⟩ :=
  (fromSlice_nthPull [7, 8] 0 ()).2 5 (by decide)

/-! ## Lemmas on the arithmetic-range source -/

theorem wrap_add (t : IntType) (a b : Int) : t.wrap (t.wrap a + b) = t.wrap (a + b) := by
  unfold IntType.wrap
  by_cases hs : t.signed = true
  · simp only [hs, if_true]
    have e : (a + 2 ^ (t.bits - 1)) % 2 ^ t.bits - 2 ^ (t.bits - 1) + b + 2 ^ (t.bits - 1)
        = (a + 2 ^ (t.bits - 1)) % 2 ^ t.bits + b := by ring
    rw [e, Int.emod_add_emod]
    have e2 : a + 2 ^ (t.bits - 1) + b = a + b + 2 ^ (t.bits - 1) := by ring
    rw [e2]
  · simp only [hs, if_false, Bool.false_eq_true]
    rw [Int.emod_add_emod]

theorem wrap_wrap (t : IntType) (a : Int) : t.wrap (t.wrap a) = t.wrap a := by
  have h := wrap_add t a 0
  simpa using h

theorem intRange_nthPull {W : Type} (E : IntType) (inc : Int) (fuel : Nat) (w : W) :
    ∀ (k : Nat) (v : Int), E.wrap v = v →
      nthPull fuel k (⟨E, v, inc, none⟩ : intRange) w
        = some ⟨E.wrap (v + k * inc), none, ⟨E, E.wrap (v + (k + 1) * inc), inc, none⟩, w⟩ := by
  intro k
  induction k with
  | zero =>
    intro v hv
    simp [nthPull, Seq.Next, intRange.Next, hv]
  | succ k ih =>
    intro v hv
    simp only [nthPull, Seq.Next, intRange.Next, ne_eq, not_true_eq_false, false_and, if_false]
    rw [ih (E.wrap (v + inc)) (wrap_wrap E _), wrap_add, wrap_add]
    have e1 : v + inc + (k : Int) * inc = v + ((k + 1 : Nat) : Int) * inc := by
      push_cast; ring
    have e2 : v + inc + ((k : Int) + 1) * inc = v + (((k + 1 : Nat) : Int) + 1) * inc := by
      push_cast; ring
    rw [e1, e2]

theorem intRange_emits {W : Type} (E : IntType) (inc : Int) :
    ∀ (n : Nat) (v : Int), E.wrap v = v →
      Emits W 0 (⟨E, v, inc, none⟩ : intRange)
        (quiet ((List.range n).map fun i : Nat => E.wrap (v + (i : Int) * inc)))
        ⟨E, E.wrap (v + (n : Int) * inc), inc, none⟩ := by
  intro n
  induction n with
  | zero =>
    intro v hv
    simpa [quiet, hv] using Emits.done (W := W) (N := 0) (⟨E, v, inc, none⟩ : intRange)
  | succ n ih =>
    intro v hv
    have hr : (List.range (n + 1)).map (fun i : Nat => E.wrap (v + (i : Int) * inc))
        = E.wrap (v + ((0 : Nat) : Int) * inc)
          :: (List.range n).map (fun i : Nat => E.wrap (v + ((i + 1 : Nat) : Int) * inc)) := by
      rw [List.range_succ_eq_map]
      simp [Function.comp_def]
    rw [hr]
    have h0 : E.wrap (v + ((0 : Nat) : Int) * inc) = v := by simpa using hv
    rw [h0]
    have h := ih (E.wrap (v + inc)) (wrap_wrap E _)
    have ef : (fun i : Nat => E.wrap (E.wrap (v + inc) + (i : Int) * inc))
        = fun i : Nat => E.wrap (v + ((i + 1 : Nat) : Int) * inc) := by
      funext i
      rw [wrap_add]
      congr 1
      push_cast; ring
    rw [ef] at h
    have e3 : E.wrap (E.wrap (v + inc) + (n : Int) * inc)
        = E.wrap (v + ((n + 1 : Nat) : Int) * inc) := by
      rw [wrap_add]
      congr 1
      push_cast; ring
    rw [e3] at h
    refine @Emits.pull W _ _ _ _ _ (⟨E, E.wrap (v + inc), inc, none⟩) _ _ _ _ ?_ h
    intro fuel w _
    simp [Seq.Next, intRange.Next]

/-- C13. For every integer type `E`, every `start` of type `E` and every
`inc`, the pull number `k` on `InfiniteIntRange(start, inc)` returns
`start + k * inc` reduced into `E` (modulo `2 ^ bits`), with a nil error: no
pull returns `Exhausted` or any other error. -/
theorem infiniteIntRange_nthPull {W : Type} (E : IntType) (start inc : Int) (fuel : Nat)
    (w : W) (hstart : E.wrap start = start) (k : Nat) :
    nthPull fuel k (InfiniteIntRange E start inc) w
      = some ⟨E.wrap (start + k * inc), none,
          ⟨E, E.wrap (start + (k + 1) * inc), inc, none⟩, w⟩ :=
  intRange_nthPull E inc fuel w k start hstart

/-- C13, at a concrete input: in `int8`, the pull after 127 returns -128. -/
theorem infiniteIntRange_nthPull_witness :
    nthPull 0 1 (InfiniteIntRange ⟨8, true⟩ 127 1) ()
      = some ⟨-128, none, ⟨⟨8, true⟩, -127, 1, none⟩, ()⟩ :=
  infiniteIntRange_nthPull ⟨8, true⟩ 127 1 0 () (by decide) 1

theorem intRange_bounded_invariant {W : Type} (E : IntType) (inc b : Int) (fuel : Nat) :
    ∀ (k : Nat) (v : Int) (w : W) (p : Pull Int intRange W),
      nthPull fuel k (⟨E, v, inc, some b⟩ : intRange) w = some p →
        (p.err = none ∨ p.err = Exhausted) ∧ (p.err = none → E.wrap (p.e + inc) < b) := by
  intro k
  induction k with
  | zero =>
    intro v w p hp
    by_cases hc : E.wrap (v + inc) ≥ b
    · simp [nthPull, Seq.Next, intRange.Next, hc] at hp
      subst hp
      simp [Exhausted]
    · simp [nthPull, Seq.Next, intRange.Next, hc] at hp
      subst hp
      simpa using hc
  | succ k ih =>
    intro v w p hp
    by_cases hc : E.wrap (v + inc) ≥ b
    · simp only [nthPull, Seq.Next, intRange.Next, ne_eq, reduceCtorEq, not_false_eq_true,
        Option.getD_some, hc, and_self, if_true] at hp
      exact ih v w p hp
    · simp only [nthPull, Seq.Next, intRange.Next, ne_eq, reduceCtorEq, not_false_eq_true,
        Option.getD_some, hc, and_false, if_false] at hp
      exact ih _ w p hp

theorem intRange_exhausted_stays {W : Type} (E : IntType) (v inc b : Int) (fuel : Nat) (w : W)
    (hc : E.wrap (v + inc) ≥ b) :
    ∀ k : Nat, nthPull fuel k (⟨E, v, inc, some b⟩ : intRange) w
      = some ⟨0, Exhausted, ⟨E, v, inc, some b⟩, w⟩ := by
  intro k
  induction k with
  | zero => simp [nthPull, Seq.Next, intRange.Next, hc]
  | succ k ih =>
    simp only [nthPull, Seq.Next, intRange.Next, ne_eq, reduceCtorEq, not_false_eq_true,
      Option.getD_some, hc, and_self, if_true]
    exact ih

set_option maxRecDepth 100000 in
/-- C15. Draining `Take(InfiniteIntRange(start, inc), n)` hands the terminal
operation exactly the `n` values `start, start + inc, .., start + (n-1) * inc`
(sums computed in `E`), in that order, and then end-of-data: `ForEach` and
`Reduce` return a nil error.  In particular `ForEach` over
`Take(InfiniteIntRange(1, 1), 10)` visits 1, 2, .., 10 in order and returns
nil, and `Reduce` with addition returns `(55, nil)`. -/
theorem take_infiniteIntRange {W : Type} (E : IntType) (start inc : Int) (n fuel : Nat)
    (hstart : E.wrap start = start) (hfuel : n < fuel) :
    (∀ (f : Int → W → W) (w : W),
      ForEach f fuel (Take (InfiniteIntRange E start inc) n) w
        = some ⟨none, ⟨n, n, ⟨E, E.wrap (start + n * inc), inc, none⟩⟩,
            visit f ((List.range n).map fun i : Nat => E.wrap (start + i * inc)) w⟩)
    ∧ (∀ (R : Type) [Inhabited R] (f : R → Int → W → R × W) (initial : List R) (w : W),
      initial.length ≤ 1 →
      Reduce fuel (Take (InfiniteIntRange E start inc) n) f initial w
        = some (Outcome.returned
            (fold f ((List.range n).map fun i : Nat => E.wrap (start + i * inc))
              (initial.headD default) w).1 none
            ⟨n, n, ⟨E, E.wrap (start + n * inc), inc, none⟩⟩
            (fold f ((List.range n).map fun i : Nat => E.wrap (start + i * inc))
              (initial.headD default) w).2))
    ∧ ForEach (fun x log => log ++ [x]) 11 (Take (InfiniteIntRange goInt 1 1) 10) []
        = some ⟨none, ⟨10, 10, ⟨goInt, 11, 1, none⟩⟩, [1, 2, 3, 4, 5, 6, 7, 8, 9, 10]⟩
    ∧ Reduce 11 (Take (InfiniteIntRange goInt 1 1) 10) plus [] ()
        = some (Outcome.returned 55 none ⟨10, 10, ⟨goInt, 11, 1, none⟩⟩ ()) := by
  have hE := intRange_emits (W := W) E inc n start hstart
  have hlen : ((List.range n).map fun i : Nat => E.wrap (start + (i : Int) * inc)).length = n := by
    simp
  have ht := takeSeq_emits hE (n : Int) 0 (by rw [quiet_length, hlen]; simp)
  rw [quiet_length, hlen] at ht
  simp only [zero_add] at ht
  have hh : Halts W 0 (⟨n, n, ⟨E, E.wrap (start + n * inc), inc, none⟩⟩ : takeSeq intRange)
      GoError.exhausted id ⟨n, n, ⟨E, E.wrap (start + n * inc), inc, none⟩⟩ :=
    takeSeq_halts_limit (n : Int) (n : Int) _ (le_refl _)
  refine ⟨?_, ?_, by rfl, by rfl⟩
  · intro f w
    have h := forEach_quiet f ht hh fuel w (by rw [hlen]; omega)
    simpa [errorsIs_exhausted, Exhausted, Take, InfiniteIntRange] using h
  · intro R _ f initial w hinit
    have h := reduce_quiet f ht hh initial hinit fuel w (by rw [hlen]; omega)
    simpa [errorsIs_exhausted, Exhausted, Take, InfiniteIntRange] using h

/-- C15, at a concrete input: three values from 250 in steps of 4, in `uint8`. -/
theorem take_infiniteIntRange_witness :
    ForEach (fun x log => log ++ [x]) 4 (Take (InfiniteIntRange ⟨8, false⟩ 250 4) (3 : Nat)) []
      = some ⟨none, ⟨3, 3, ⟨⟨8, false⟩, 6, 4, none⟩⟩, [250, 254, 2]⟩ :=
  (take_infiniteIntRange ⟨8, false⟩ 250 4 3 4 (by decide) (by decide)).1
    (fun x log => log ++ [x]) []

/-- C16. A bounded `intRange` with current value `v`, increment `inc` and bound
`b`: when `v + inc >= b` (the sum computed in `E`) a pull returns `Exhausted`
and leaves the range as it is, so that every later pull returns `Exhausted`
too; when `v + inc < b` a pull returns `v` and advances `v` to `v + inc`.
Hence in any row of pulls every value `e` that is returned has `e + inc < b`: a
value whose successor reaches the bound is never emitted, and the only error is
`Exhausted`. -/
theorem intRange_bounded {W : Type} (E : IntType) (v inc b : Int) (fuel : Nat) (w : W) :
    (E.wrap (v + inc) ≥ b →
      intRange.Next (⟨E, v, inc, some b⟩ : intRange) w = ⟨0, Exhausted, ⟨E, v, inc, some b⟩, w⟩
      ∧ ∀ k : Nat, nthPull fuel k (⟨E, v, inc, some b⟩ : intRange) w
          = some ⟨0, Exhausted, ⟨E, v, inc, some b⟩, w⟩)
    ∧ (E.wrap (v + inc) < b →
      intRange.Next (⟨E, v, inc, some b⟩ : intRange) w
        = ⟨v, none, ⟨E, E.wrap (v + inc), inc, some b⟩, w⟩)
    ∧ (∀ (k : Nat) (p : Pull Int intRange W),
      nthPull fuel k (⟨E, v, inc, some b⟩ : intRange) w = some p →
        (p.err = none ∨ p.err = Exhausted) ∧ (p.err = none → E.wrap (p.e + inc) < b)) := by
  refine ⟨?_, ?_, ?_⟩
  · intro hc
    exact ⟨by simp [intRange.Next, hc], intRange_exhausted_stays E v inc b fuel w hc⟩
  · intro hc
    have hn : ¬ b ≤ E.wrap (v + inc) := by omega
    simp [intRange.Next, hn]
  · intro k p hp
    exact intRange_bounded_invariant E inc b fuel k v w p hp

/-- C16, at a concrete input: the range from 0 in steps of 1 with bound 3 is
exhausted at 2, which it never emits. -/
theorem intRange_bounded_witness :
    nthPull 0 4 (⟨goInt, 2, 1, some 3⟩ : intRange) ()
      = some ⟨0, Exhausted, ⟨goInt, 2, 1, some 3⟩, ()⟩ :=
  ((intRange_bounded goInt 2 1 3 0 ()).1 (by decide)).2 4

/-! ## Lemmas on fuel -/

theorem intRange_fuelMono (W : Type) : FuelMono W intRange := by
  intro f g s w r _ h
  simpa [Seq.Next] using h

theorem sliceSeq_fuelMono (W E : Type) [Inhabited E] : FuelMono W (sliceSeq E) := by
  intro f g s w r _ h
  simpa [Seq.Next] using h

theorem mapSeq_fuelMono {W σ I O : Type} [Seq W σ I] [Inhabited O] (hu : FuelMono W σ) :
    FuelMono W (mapSeq W σ I O) := by
  intro f g m w r hfg h
  simp only [Seq.Next, mapSeq.Next] at h ⊢
  cases hn : Seq.Next f m.s w with
  | none => simp [hn] at h
  | some p =>
    rw [hu f g m.s w p hfg hn]
    simpa [hn] using h

theorem mapESeq_fuelMono {W σ I O : Type} [Seq W σ I] [Inhabited O] (hu : FuelMono W σ) :
    FuelMono W (mapESeq W σ I O) := by
  intro f g m w r hfg h
  simp only [Seq.Next, mapESeq.Next] at h ⊢
  cases hn : Seq.Next f m.s w with
  | none => simp [hn] at h
  | some p =>
    rw [hu f g m.s w p hfg hn]
    simpa [hn] using h

theorem takeSeq_fuelMono {W σ E : Type} [Seq W σ E] [Inhabited E] (hu : FuelMono W σ) :
    FuelMono W (takeSeq σ) := by
  intro f g t w r hfg h
  simp only [Seq.Next, takeSeq.Next] at h ⊢
  by_cases hc : t.current ≥ t.limit
  · simpa [hc] using h
  · simp only [hc, if_false] at h ⊢
    cases hn : Seq.Next f t.from_ w with
    | none => simp [hn] at h
    | some p =>
      rw [hu f g t.from_ w p hfg hn]
      simpa [hn] using h

theorem filterSeq_fuelMono {W σ E : Type} [Seq W σ E] (hu : FuelMono W σ) :
    FuelMono W (filterSeq W σ E) := by
  intro f
  induction f with
  | zero =>
    intro g s w r _ h
    simp [Seq.Next, filterSeq.Next] at h
  | succ f ih =>
    intro g s w r hfg h
    obtain ⟨g, rfl⟩ : ∃ j, g = j + 1 := ⟨g - 1, by omega⟩
    have hfg2 : f ≤ g := by omega
    simp only [Seq.Next, filterSeq.Next] at h ⊢
    cases hn : Seq.Next f s.s w with
    | none => simp [hn] at h
    | some p =>
      rw [hu f g s.s w p hfg2 hn]
      simp only [hn] at h
      by_cases he : p.err ≠ none
      · simpa [he] using h
      · simp only [he, if_false] at h ⊢
        by_cases hb : (s.p p.e p.w).1 = true
        · simpa [hb] using h
        · simp only [hb, if_false, Bool.false_eq_true] at h ⊢
          exact ih g _ _ r hfg2 h

theorem reduce_loop_fuelMono {W σ I R : Type} [Seq W σ I] (hu : FuelMono W σ)
    (red : R → I → W → R × W) :
    ∀ (f g : Nat) (r : R) (s : σ) (w : W) (out : Outcome R σ W),
      f ≤ g → Reduce.loop red f r s w = some out → Reduce.loop red g r s w = some out := by
  intro f
  induction f with
  | zero =>
    intro g r s w out _ h
    simp [Reduce.loop] at h
  | succ f ih =>
    intro g r s w out hfg h
    obtain ⟨g, rfl⟩ : ∃ j, g = j + 1 := ⟨g - 1, by omega⟩
    have hfg2 : f ≤ g := by omega
    simp only [Reduce.loop] at h ⊢
    cases hn : Seq.Next f s w with
    | none => simp [hn] at h
    | some p =>
      rw [hu f g s w p hfg2 hn]
      simp only [hn] at h
      by_cases hx : errorsIs p.err Exhausted = true
      · simpa [hx] using h
      · simp only [hx, if_false, Bool.false_eq_true] at h ⊢
        by_cases he : p.err ≠ none
        · simpa [he] using h
        · simp only [he, if_false] at h ⊢
          exact ih g _ _ _ out hfg2 h

theorem reduce_fuelMono {W σ I R : Type} [Seq W σ I] [Inhabited R] (hu : FuelMono W σ)
    (red : R → I → W → R × W) (initial : List R) (f g : Nat) (s : σ) (w : W)
    (out : Outcome R σ W) (hfg : f ≤ g) (h : Reduce f s red initial w = some out) :
    Reduce g s red initial w = some out := by
  simp only [Reduce] at h ⊢
  by_cases hl : initial.length > 1
  · simpa [hl] using h
  · simp only [hl, if_false] at h ⊢
    exact reduce_loop_fuelMono hu red f g _ s w out hfg h

set_option maxRecDepth 100000 in
/-- C14. The pipeline `Reduce(Take(Filter(Map(InfiniteIntRange(19, inc), i ->
i*3), i -> i%2 == 0), 17), (sum, i) -> sum + i)` with no initial value, in the
type `int`, returns `(1836, nil)` for `inc = 1` and `(3570, nil)` for
`inc = 3`, with any fuel from 20 on; the range has by then produced 34
values. -/
theorem example_pipeline (fuel : Nat) (hfuel : 20 ≤ fuel) :
    Reduce fuel (Take (Filter (Map (InfiniteIntRange goInt 19 1) timesThree) isEven) 17)
        plus [] ()
      = some (Outcome.returned 1836 none
          ⟨17, 17, Filter (Map ⟨goInt, 53, 1, none⟩ timesThree) isEven⟩ ())
    ∧ Reduce fuel (Take (Filter (Map (InfiniteIntRange goInt 19 3) timesThree) isEven) 17)
        plus [] ()
      = some (Outcome.returned 3570 none
          ⟨17, 17, Filter (Map ⟨goInt, 121, 3, none⟩ timesThree) isEven⟩ ()) := by
  have hm : FuelMono Unit (takeSeq (filterSeq Unit (mapSeq Unit intRange Int Int) Int)) :=
    takeSeq_fuelMono (filterSeq_fuelMono (mapSeq_fuelMono (intRange_fuelMono Unit)))
  exact ⟨reduce_fuelMono hm plus [] 20 fuel _ () _ hfuel (by rfl),
    reduce_fuelMono hm plus [] 20 fuel _ () _ hfuel (by rfl)⟩

set_option maxRecDepth 100000 in
/-- C14, at a concrete input: the run with fuel 25. -/
theorem example_pipeline_witness :
    Reduce 25 (Take (Filter (Map (InfiniteIntRange goInt 19 1) timesThree) isEven) 17)
        plus [] ()
      = some (Outcome.returned 1836 none
          ⟨17, 17, Filter (Map ⟨goInt, 53, 1, none⟩ timesThree) isEven⟩ ()) :=
  (example_pipeline 25 (by decide)).1

/-! ## Lemmas on Take under repeated pulls -/

theorem takeSeq_pull_budget {W σ E : Type} [Seq W σ E] [Inhabited E] (n fuel : Nat) :
    ∀ (k q : Nat) (u : σ) (w : W) (p : Pull E (takeSeq (pullCounter σ)) W), q ≤ n →
      nthPull fuel k (⟨q, n, ⟨u, q⟩⟩ : takeSeq (pullCounter σ)) w = some p →
        p.s.from_.pulls = min (q + k + 1) n ∧ p.s.current = (min (q + k + 1) n : Nat)
          ∧ p.s.limit = n := by
  intro k
  induction k with
  | zero =>
    intro q u w p hq hp
    by_cases hc : n ≤ q
    · have hc2 : (n : Int) ≤ (q : Int) := by omega
      simp [nthPull, Seq.Next, takeSeq.Next, hc2] at hp
      subst hp
      have : min (q + 1) n = q := by omega
      simp [this]
    · have hc2 : ¬ (n : Int) ≤ (q : Int) := by omega
      simp only [nthPull, Seq.Next, takeSeq.Next, ge_iff_le, hc2, if_false] at hp
      cases hn : Seq.Next fuel u w with
      | none => simp [Seq.Next, hn] at hp
      | some r =>
        simp [Seq.Next, hn] at hp
        subst hp
        have : min (q + 1) n = q + 1 := by omega
        simp [this]
  | succ k ih =>
    intro q u w p hq hp
    by_cases hc : n ≤ q
    · have hc2 : (n : Int) ≤ (q : Int) := by omega
      simp only [nthPull, Seq.Next, takeSeq.Next, ge_iff_le, hc2, if_true] at hp
      have h := ih q u w p hq hp
      have e1 : min (q + k + 1) n = min (q + (k + 1) + 1) n := by omega
      rw [← e1]
      exact h
    · have hc2 : ¬ (n : Int) ≤ (q : Int) := by omega
      simp only [nthPull, Seq.Next, takeSeq.Next, ge_iff_le, hc2, if_false] at hp
      cases hn : Seq.Next fuel u w with
      | none => simp [Seq.Next, hn] at hp
      | some r =>
        simp only [Seq.Next, hn] at hp
        have hcast : (q : Int) + 1 = ((q + 1 : Nat) : Int) := by push_cast; rfl
        rw [hcast] at hp
        have h := ih (q + 1) r.s r.w p (by omega) hp
        have e1 : min (q + 1 + k + 1) n = min (q + (k + 1) + 1) n := by omega
        rw [← e1]
        exact h

theorem takeSeq_nthPull_total {W σ E : Type} [Seq W σ E] [Inhabited E] (fuel : Nat)
    (htotal : ∀ (u : σ) (w : W), ∃ r, Seq.Next fuel u w = some r) :
    ∀ (k : Nat) (t : takeSeq (pullCounter σ)) (w : W), ∃ p, nthPull fuel k t w = some p := by
  have hstep : ∀ (t : takeSeq (pullCounter σ)) (w : W), ∃ p, Seq.Next fuel t w = some p := by
    intro t w
    by_cases hc : t.current ≥ t.limit
    · refine ⟨⟨default, Exhausted, t, w⟩, ?_⟩
      simp [Seq.Next, takeSeq.Next, hc]
    · obtain ⟨r, hr⟩ := htotal t.from_.inner w
      refine ⟨⟨r.e, r.err, ⟨t.current + 1, t.limit, ⟨r.s, t.from_.pulls + 1⟩⟩, r.w⟩, ?_⟩
      simp [Seq.Next, takeSeq.Next, hc, hr]
  intro k
  induction k with
  | zero => intro t w; simpa [nthPull] using hstep t w
  | succ k ih =>
    intro t w
    obtain ⟨p, hp⟩ := hstep t w
    obtain ⟨p2, hp2⟩ := ih p.s p.w
    exact ⟨p2, by simp [nthPull, hp, hp2]⟩

/-- C17, as stated, fails: the slice is empty, so the first pull on the take
already sees the upstream report `Exhausted` (one pull on the upstream); the
take's counter, now 1, is still below the limit 3, and the second pull on the
take pulls the upstream again (two pulls on the upstream). -/
theorem take_pulls_upstream_after_exhausted :
    nthPull 0 0 (Take (⟨FromSlice ([] : List Nat), 0⟩ : pullCounter (sliceSeq Nat)) 3) ()
        = some ⟨default, Exhausted, ⟨1, 3, ⟨⟨[], 0⟩, 1⟩⟩, ()⟩
    ∧ nthPull 0 1 (Take (⟨FromSlice ([] : List Nat), 0⟩ : pullCounter (sliceSeq Nat)) 3) ()
        = some ⟨default, Exhausted, ⟨2, 3, ⟨⟨[], 0⟩, 2⟩⟩, ()⟩ :=
  ⟨by decide, by decide⟩

/-- C17, amended. In any row of pulls on `Take(s, n)`, `n` a natural number,
over an upstream watched by a pull counter: after `k + 1` pulls on the take the
upstream has been pulled `min (k + 1) n` times, whatever those pulls returned,
so each pull on the take pulls the upstream once while the counter is below the
limit (also after an upstream end-of-data or fault) and never once it has
reached it, at most `n` times in all; such a row of pulls goes through whenever
the upstream's pulls return.  A terminal operation stops at the first non-nil
error: when the upstream emits fewer than `n` elements and then fails,
`ForEach` leaves it pulled once per element and once for the error. -/
theorem take_pull_budget {W σ E : Type} [Seq W σ E] [Inhabited E] (n fuel : Nat) (s : σ)
    (w : W) :
    (∀ (k : Nat) (p : Pull E (takeSeq (pullCounter σ)) W),
      nthPull fuel k (Take (⟨s, 0⟩ : pullCounter σ) n) w = some p →
        p.s.from_.pulls = min (k + 1) n ∧ p.s.from_.pulls ≤ n)
    ∧ ((∀ (u : σ) (v : W), ∃ r, Seq.Next fuel u v = some r) →
      ∀ k : Nat, ∃ p, nthPull fuel k (Take (⟨s, 0⟩ : pullCounter σ) n) w = some p)
    ∧ (∀ (N : Nat) (s1 s2 : σ) (steps : List (E × (W → W))) (err : GoError) (g : W → W)
        (f : E → W → W),
      Emits W N s steps s1 → Halts W N s1 err g s2 → steps.length < n →
      N + steps.length < fuel →
      ForEach f fuel (Take (⟨s, 0⟩ : pullCounter σ) n) w
        = some ⟨if errorsIs (some err) Exhausted then none else some err,
            ⟨(steps.length + 1 : Nat), n, ⟨s2, steps.length + 1⟩⟩,
            g (steps.foldl (fun w st => f st.1 (st.2 w)) w)⟩) := by
  refine ⟨?_, ?_, ?_⟩
  · intro k p hp
    have h := takeSeq_pull_budget n fuel k 0 s w p (Nat.zero_le n)
      (by simpa [Take] using hp)
    simp only [zero_add] at h
    exact ⟨h.1, by rw [h.1]; exact Nat.min_le_right _ _⟩
  · intro htotal k
    exact takeSeq_nthPull_total fuel htotal k _ w
  · intro N s1 s2 steps err g f hE hH hlen hfuel
    have hc := pullCounter_emits hE 0
    have ht := takeSeq_emits hc (n : Int) 0 (by omega)
    simp only [zero_add] at ht
    have hh := takeSeq_halts_upstream (pullCounter_halts hH (0 + steps.length))
      (steps.length : Int) (n : Int) (by omega)
    simp only [zero_add] at hh
    have h := forEach_run f ht hh fuel w (by omega)
    simpa [Take] using h

/-- C17, amended, at a concrete input: five pulls on a take of 3 over a slice
of one element pull the slice three times. -/
theorem take_pull_budget_witness :
    ∃ p, nthPull 0 4 (Take (⟨FromSlice [9], 0⟩ : pullCounter (sliceSeq Nat)) (3 : Nat)) ()
      = some p :=
  (take_pull_budget 3 0 (FromSlice [9]) ()).2.1 (fun _ _ => ⟨_, rfl⟩) 4

/-! ## Lemmas on the recursion of Filter -/

/-- C11: the code returns `Exhausted` whenever `Scan` reports no further line,
without looking at `Err`.  Here the reader fails with an I/O error before any
line: `Scan` returns false, `Err` returns the fault, and the pull returns
`Exhausted` instead of the fault.  The fault shows only while `Scan` still
delivers buffered tokens. -/
theorem scanner_fault_reported_as_exhausted :
    (bufioScanner.Scan ⟨[], [], some (GoError.leaf 5), [], none⟩).1 = false
    ∧ (bufioScanner.Scan ⟨[], [], some (GoError.leaf 5), [], none⟩).2.Err
        = some (GoError.leaf 5)
    ∧ scannerSeq.Next (Scanner ⟨[], [], some (GoError.leaf 5), [], none⟩) ()
        = ⟨[], Exhausted, ⟨⟨[], [], some (GoError.leaf 5), [], some (GoError.leaf 5)⟩⟩, ()⟩
    ∧ scannerSeq.Next (Scanner ⟨[], [[104, 105]], some (GoError.leaf 5), [], none⟩) ()
        = ⟨[], some (GoError.leaf 5),
            ⟨⟨[], [], some (GoError.leaf 5), [104, 105], some (GoError.leaf 5)⟩⟩, ()⟩
    ∧ (∀ (W : Type) (s : scannerSeq) (w : W), s.scanner.Scan.1 = false →
        (scannerSeq.Next s w).err = Exhausted) := by
  refine ⟨by decide, by decide, by decide, by decide, ?_⟩
  intro W s w h
  simp [scannerSeq.Next, h]

/-! ## Lemmas on MapE -/

theorem mapE_emits {W σ I O : Type} [Seq W σ I] [Inhabited O] (m : I → O × error)
    (tick : I → W → W) {N : Nat} {s s1 : σ} {steps : List (I × (W → W))}
    (hE : Emits W N s steps s1) :
    (∀ st ∈ steps, (m st.1).2 = none) →
      Emits W N (MapE s (fallible m tick))
        (steps.map fun st => ((m st.1).1, tick st.1 ∘ st.2)) (MapE s1 (fallible m tick)) := by
  induction hE with
  | done s => intro _; exact Emits.done _
  | @pull a b c x g rest hp _ ih =>
    intro hok
    have hx : (m x).2 = none := hok (x, g) (List.mem_cons_self _ _)
    refine @Emits.pull W _ _ _ _ _ (MapE b (fallible m tick)) _ _ _ _ ?_
      (ih (fun st hst => hok st (List.mem_cons_of_mem _ hst)))
    intro fuel w hf
    simp [Seq.Next, mapESeq.Next, MapE, hp fuel w hf, fallible, hx]

theorem mapE_halts_upstream {W σ I O : Type} [Seq W σ I] [Inhabited O]
    (m : I → W → (O × error) × W) {N : Nat} {s s1 : σ} {err : GoError} {g : W → W}
    (hH : Halts W N s err g s1) :
    Halts W N (MapE s m) err g (MapE s1 m) := by
  intro fuel w hf
  obtain ⟨e, he⟩ := hH fuel w hf
  exact ⟨default, by simp [Seq.Next, mapESeq.Next, MapE, he]⟩

theorem mapE_halts_mapper {W σ I O : Type} [Seq W σ I] [Inhabited O] (m : I → O × error)
    (tick : I → W → W) {N : Nat} {s s1 : σ} {x : I} {g : W → W} {err : GoError}
    (hp : ∀ (fuel : Nat) (w : W), N ≤ fuel → Seq.Next fuel s w = some ⟨x, none, s1, g w⟩)
    (hx : (m x).2 = some err) :
    Halts W N (MapE s (fallible m tick)) err (tick x ∘ g) (MapE s1 (fallible m tick)) := by
  intro fuel w hf
  exact ⟨(m x).1, by simp [Seq.Next, mapESeq.Next, MapE, hp fuel w hf, fallible, hx]⟩

theorem sliceSeq_emits_prefix {W E : Type} [Inhabited E] (xs : List E) :
    ∀ (n i : Nat), i + n ≤ xs.length →
      Emits W 0 (⟨xs, i⟩ : sliceSeq E) (quiet ((xs.drop i).take n)) ⟨xs, i + n⟩ := by
  intro n
  induction n with
  | zero =>
    intro i _
    simpa [quiet] using Emits.done (W := W) (N := 0) (⟨xs, i⟩ : sliceSeq E)
  | succ n ih =>
    intro i hi
    have hlt : i < xs.length := by omega
    rw [List.drop_eq_getElem_cons hlt]
    simp only [List.take_succ_cons, quiet, List.map_cons]
    have h := ih (i + 1) (by omega)
    have e : i + 1 + n = i + (n + 1) := by omega
    rw [e] at h
    refine Emits.pull ?_ h
    intro fuel w _
    have hn : ¬ xs.length ≤ i := by omega
    simp [Seq.Next, sliceSeq.Next, hn]

theorem sliceSeq_pull {W E : Type} [Inhabited E] (xs : List E) (k : Nat) (hk : k < xs.length) :
    ∀ (fuel : Nat) (w : W), 0 ≤ fuel →
      Seq.Next fuel (⟨xs, k⟩ : sliceSeq E) w = some ⟨xs.get ⟨k, hk⟩, none, ⟨xs, k + 1⟩, id w⟩ := by
  intro fuel w _
  have hn : ¬ xs.length ≤ k := by omega
  simp [Seq.Next, sliceSeq.Next, hn]

/-- The run of `MapE(FromSlice(xs), m)` when `m` succeeds on the first `k`
elements and fails with `err` on `xs[k]`. -/
theorem mapE_slice_run {W I O : Type} [Inhabited I] [Inhabited O] (xs : List I)
    (m : I → O × error) (tick : I → W → W) (k : Nat) (hk : k < xs.length) (err : GoError)
    (hok : ∀ x ∈ xs.take k, (m x).2 = none) (hbad : (m (xs.get ⟨k, hk⟩)).2 = some err) :
    Emits W 0 (MapE (FromSlice xs) (fallible m tick))
        ((xs.take k).map fun x => ((m x).1, tick x)) (MapE ⟨xs, k⟩ (fallible m tick))
    ∧ Halts W 0 (MapE (⟨xs, k⟩ : sliceSeq I) (fallible m tick)) err (tick (xs.get ⟨k, hk⟩))
        (MapE ⟨xs, k + 1⟩ (fallible m tick)) := by
  have hpre := sliceSeq_emits_prefix (W := W) xs k 0 (by omega)
  simp only [List.drop_zero, zero_add] at hpre
  have hmap := mapE_emits m tick hpre (by
    intro st hst
    simp only [quiet, List.mem_map] at hst
    obtain ⟨x, hx, rfl⟩ := hst
    exact hok x hx)
  have hl : (quiet (W := W) (xs.take k)).map (fun st => ((m st.1).1, tick st.1 ∘ st.2))
      = (xs.take k).map fun x => ((m x).1, tick x) := by
    simp [quiet, Function.comp_def]
  rw [hl] at hmap
  refine ⟨by simpa [FromSlice] using hmap, ?_⟩
  have hh := mapE_halts_mapper m tick (sliceSeq_pull (W := W) xs k hk) hbad
  simpa using hh

/-- C20, as stated, fails in its last clause: with `xs = [1, 2, 3]`, `k = 1`
and a mapper that answers `Exhausted` on `xs[1] = 2`, `Reduce` returns
`(11, nil)` from 10, but the cursor of the slice stands at 2 and the mapper's
log reads `[1, 2]`: `xs[1]` has been pulled and handed to the mapper. -/
theorem mapE_exhausted_pulls_failing_element :
    Reduce 5 (MapE (FromSlice [1, 2, 3])
          (fallible (fun x : Nat => (x, if x = 2 then Exhausted else none))
            (fun x (log : List Nat) => log ++ [x])))
        (fun (r x : Nat) (log : List Nat) => (r + x, log)) [10] []
      = some (Outcome.returned 11 none
          (MapE ⟨[1, 2, 3], 2⟩
            (fallible (fun x : Nat => (x, if x = 2 then Exhausted else none))
              (fun x (log : List Nat) => log ++ [x])))
          [1, 2]) := by
  rfl

/-- C20, amended. If the mapper `m` succeeds on `xs[0..k-1]` and returns the
`Exhausted` error on `xs[k]`, `Reduce(MapE(FromSlice(xs), m), f, init)` returns
the fold of `f` over `m(xs[0]), .., m(xs[k-1])` with a nil error and `ForEach`
returns nil: the terminal operation reports success.  The reducer, or the
function of `ForEach`, has been called on those `k` mapped elements only; the
element `xs[k]` has been pulled and handed to the mapper (the cursor of the
slice stands at `k + 1` and the mapper's effect on `xs[k]` is the last thing
done to the world); the elements after `xs[k]` have not been pulled. -/
theorem mapE_exhausted_truncates {W I O : Type} [Inhabited I] [Inhabited O] (xs : List I)
    (m : I → O × error) (tick : I → W → W) (k fuel : Nat) (hk : k < xs.length)
    (hok : ∀ x ∈ xs.take k, (m x).2 = none) (hbad : (m (xs.get ⟨k, hk⟩)).2 = Exhausted)
    (hfuel : k < fuel) :
    (∀ (R : Type) [Inhabited R] (f : R → O → W → R × W) (initial : List R) (w : W),
      initial.length ≤ 1 →
      Reduce fuel (MapE (FromSlice xs) (fallible m tick)) f initial w
        = some (Outcome.returned
            ((xs.take k).foldl (fun p x => f p.1 (m x).1 (tick x p.2))
              (initial.headD default, w)).1
            none (MapE ⟨xs, k + 1⟩ (fallible m tick))
            (tick (xs.get ⟨k, hk⟩) ((xs.take k).foldl (fun p x => f p.1 (m x).1 (tick x p.2))
              (initial.headD default, w)).2)))
    ∧ (∀ (f : O → W → W) (w : W),
      ForEach f fuel (MapE (FromSlice xs) (fallible m tick)) w
        = some ⟨none, MapE ⟨xs, k + 1⟩ (fallible m tick),
            tick (xs.get ⟨k, hk⟩) ((xs.take k).foldl (fun w x => f (m x).1 (tick x w)) w)⟩)
    ∧ (∀ (R : Type) [Inhabited R] (g : R → O → R) (a : R) (w : W),
      Reduce fuel (MapE (FromSlice xs) (fallible m (fun _ (v : W) => v))) (pure1 ∘ g) [a] w
        = some (Outcome.returned ((xs.take k).foldl (fun r x => g r (m x).1) a) none
            (MapE ⟨xs, k + 1⟩ (fallible m (fun _ (v : W) => v))) w)) := by
  have hlen : (xs.take k).length = k := by simp; omega
  have key : ∀ (tick : I → W → W) (R : Type) [Inhabited R] (f : R → O → W → R × W)
      (initial : List R) (w : W), initial.length ≤ 1 →
      Reduce fuel (MapE (FromSlice xs) (fallible m tick)) f initial w
        = some (Outcome.returned
            ((xs.take k).foldl (fun p x => f p.1 (m x).1 (tick x p.2))
              (initial.headD default, w)).1
            none (MapE ⟨xs, k + 1⟩ (fallible m tick))
            (tick (xs.get ⟨k, hk⟩) ((xs.take k).foldl (fun p x => f p.1 (m x).1 (tick x p.2))
              (initial.headD default, w)).2)) := by
    intro tick R _ f initial w hinit
    obtain ⟨hE, hH⟩ := mapE_slice_run (W := W) xs m tick k hk GoError.exhausted hok hbad
    have h := reduce_run f hE hH initial hinit fuel w (by simp; omega)
    rw [List.foldl_map] at h
    simpa [errorsIs_exhausted, Exhausted] using h
  refine ⟨key tick, ?_, ?_⟩
  · intro f w
    obtain ⟨hE, hH⟩ := mapE_slice_run (W := W) xs m tick k hk GoError.exhausted hok hbad
    have h := forEach_run f hE hH fuel w (by simp; omega)
    rw [List.foldl_map] at h
    simpa [errorsIs_exhausted, Exhausted] using h
  · intro R _ g a w
    have h := key (fun _ v => v) R (pure1 ∘ g) [a] w (by simp)
    have hf : ∀ (l : List I) (r : R),
        l.foldl (fun p x => (pure1 ∘ g) p.1 (m x).1 p.2) (r, w)
          = (l.foldl (fun r x => g r (m x).1) r, w) := by
      intro l
      induction l with
      | nil => intro r; rfl
      | cons x l ih => intro r; simp only [List.foldl_cons]; exact ih _
    simp only [List.headD_cons, hf] at h
    exact h

/-- C20, amended, at a concrete input: the mapper answers `Exhausted` on the
second of three elements. -/
theorem mapE_exhausted_truncates_witness :
    ForEach (fun x log => log ++ [x + 100]) 3
        (MapE (FromSlice [1, 2, 3])
          (fallible (fun x : Nat => (x, if x = 2 then Exhausted else none))
            (fun x (log : List Nat) => log ++ [x]))) []
      = some ⟨none,
          MapE ⟨[1, 2, 3], 1 + 1⟩
            (fallible (fun x : Nat => (x, if x = 2 then Exhausted else none))
              (fun x (log : List Nat) => log ++ [x])),
          [1, 101, 2]⟩ :=
  (mapE_exhausted_truncates [1, 2, 3]
    (fun x : Nat => (x, if x = 2 then Exhausted else none))
    (fun x (log : List Nat) => log ++ [x]) 1 3 (by decide) (by decide) (by decide)
    (by decide)).2.1 (fun x log => log ++ [x + 100]) []

/-! ## Lemmas on the log statistics example -/

end seq
